import Mathlib

/-!
# TSCNS: converting CPU cycle counts to wall-clock nanoseconds

A shallow embedding of `src/tscns.h` (class `TSCNS`) and the properties of it that the
specification states.

* 64-bit unsigned integers are naturals below `2 ^ 64`; every `+` and `-` of the source is
  written with its reduction modulo `2 ^ 64` (`add64`, `sub64`), the casts between
  `uint64_t` and `int64_t` are `toI64` and `toU64`.
* `double` is the type `F64`: IEEE-754 binary64 values with round-to-nearest-even
  arithmetic. A finite value is a sign, a significand `m` and an exponent `e`, standing for
  `± m * 2 ^ e`.  The conversion `double → int64_t` is the x86-64 one (`cvttsd2si`):
  truncation toward zero, and `-2 ^ 63` for NaN, the infinities and values out of range.
* `rdtsc()` and `rdsysns()` read the outside world.  One run of `syncTime` fills the local
  arrays `tscs[0..N]` and `nses[1..N]`; the embedding takes the contents of the two arrays
  as the functions `tscs nses : Nat → Nat`.
-/

set_option exponentiation.threshold 5000
set_option maxRecDepth 100000

namespace TSC

/-! ## 64-bit machine integers -/

/-- Unsigned 64-bit addition. -/
def add64 (a b : Nat) : Nat := (a + b) % 2 ^ 64

/-- Unsigned 64-bit subtraction. -/
def sub64 (a b : Nat) : Nat := (a + (2 ^ 64 - b % 2 ^ 64)) % 2 ^ 64

/-- The cast `(int64_t)u` of an unsigned 64-bit value (two's complement). -/
def toI64 (u : Nat) : Int :=
  if u % 2 ^ 64 < 2 ^ 63 then ((u % 2 ^ 64 : Nat) : Int) else ((u % 2 ^ 64 : Nat) : Int) - 2 ^ 64

/-- The conversion of an `int64_t` to `uint64_t` (two's complement). -/
def toU64 (i : Int) : Nat := (i % 2 ^ 64).toNat

/-! ## IEEE-754 binary64 -/

/-- Number of binary digits of `n`, by halving (`fuel` bounds the number of halvings). -/
def bitLenAux : Nat → Nat → Nat
  | 0, _ => 0
  | fuel + 1, n => if n = 0 then 0 else bitLenAux fuel (n / 2) + 1

/-- Number of binary digits of `n`: `2 ^ (bitLen n - 1) ≤ n < 2 ^ bitLen n` for `n > 0`. -/
def bitLen (n : Nat) : Nat := bitLenAux n n

/-- The quotient `n / d` rounded to the nearest natural number, ties to the even one. -/
def rneDiv (n d : Nat) : Nat :=
  let q := n / d
  let r := n % d
  if 2 * r < d then q
  else if d < 2 * r then q + 1
  else if q % 2 = 0 then q else q + 1

/-- The binary logarithm of `n / d` rounded down, for `n, d > 0`:
`2 ^ rndLg n d ≤ n / d < 2 ^ (rndLg n d + 1)`. -/
def rndLg (n d : Nat) : Int :=
  let L : Int := (bitLen n : Int) - (bitLen d : Int)
  if d * 2 ^ L.toNat ≤ n * 2 ^ (-L).toNat then L else L - 1

/-- The exponent of the double nearest to `(n / d) * 2 ^ k`: the one that puts the
significand in `[2 ^ 52, 2 ^ 53)`, and `-1074` (subnormal range) when that is smaller. -/
def rndE (n d : Nat) (k : Int) : Int := max (rndLg n d + k - 52) (-1074)

/-- The significand of the double nearest to `(n / d) * 2 ^ k`: the value
`(n / d) * 2 ^ (k - rndE n d k)` rounded to the nearest integer, ties to even. -/
def rndM (n d : Nat) (k : Int) : Nat :=
  rneDiv (n * 2 ^ (k - rndE n d k).toNat) (d * 2 ^ (-(k - rndE n d k)).toNat)

/-- The rational number `m * 2 ^ e`. -/
def val (m : Nat) (e : Int) : ℚ := (m : ℚ) * (2 : ℚ) ^ e

/-- The integer part of `m * 2 ^ e`. -/
def truncNat (m : Nat) (e : Int) : Nat :=
  if 0 ≤ e then m * 2 ^ e.toNat else m / 2 ^ (-e).toNat

/-- A `double`: NaN, a signed infinity, or the finite value `± m * 2 ^ e`.  The values the
operations below produce are canonical: `m < 2 ^ 53`, `-1074 ≤ e ≤ 971`, and
`2 ^ 52 ≤ m` unless `e = -1074` (zero and the subnormal numbers). -/
inductive F64 where
  | nan : F64
  | inf (neg : Bool) : F64
  | fin (neg : Bool) (m : Nat) (e : Int) : F64
deriving DecidableEq, Repr

namespace F64

/-- The double nearest to `± (n / d) * 2 ^ k` (ties to the even significand), for
`d > 0`: the significand `rndM` at the exponent `rndE`, renormalised when the significand
rounds up to `2 ^ 53`; a result of `2 ^ 1024` or more (exponent above `971`) is an
infinity. -/
def round (neg : Bool) (n d : Nat) (k : Int) : F64 :=
  if n = 0 then fin neg 0 (-1074) else
  let E : Int := rndE n d k
  let M : Nat := rndM n d k
  if M = 2 ^ 53 then (if 971 < E + 1 then inf neg else fin neg (2 ^ 52) (E + 1))
  else (if 971 < E then inf neg else fin neg M E)

/-- The constant `1.0`. -/
def one : F64 := fin false (2 ^ 52) (-52)

/-- The product of two doubles. -/
def mul : F64 → F64 → F64
  | fin s m e, fin t m' e' => round (xor s t) (m * m') 1 (e + e')
  | fin s m _, inf t => if m = 0 then nan else inf (xor s t)
  | inf s, fin t m _ => if m = 0 then nan else inf (xor s t)
  | inf s, inf t => inf (xor s t)
  | _, _ => nan

/-- The quotient of two doubles. -/
def div : F64 → F64 → F64
  | fin s m e, fin t m' e' =>
      if m' = 0 then (if m = 0 then nan else inf (xor s t))
      else round (xor s t) m m' (e - e')
  | fin s _ _, inf t => fin (xor s t) 0 (-1074)
  | inf s, fin t _ _ => inf (xor s t)
  | _, _ => nan

/-- The conversion `(double)i` of an `int64_t`. -/
def ofInt64 (i : Int) : F64 := round (decide (i < 0)) i.natAbs 1 0

/-- The conversion `(int64_t)x` of a double as x86-64 performs it: truncation toward zero,
and `-2 ^ 63` when `x` is NaN, infinite or out of the range of `int64_t`. -/
def toInt64 : F64 → Int
  | fin s m e =>
      let v : Int := if s then -(truncNat m e : Int) else (truncNat m e : Int)
      if -2 ^ 63 ≤ v ∧ v < 2 ^ 63 then v else -2 ^ 63
  | _ => -2 ^ 63

/-- The comparison `x <= 0.0`. -/
def le0 : F64 → Bool
  | nan => false
  | inf s => s
  | fin s m _ => s || decide (m = 0)

/-- The comparison `0.0 < x`. -/
def pos : F64 → Bool
  | nan => false
  | inf s => !s
  | fin s m _ => !s && decide (m ≠ 0)

/-- A double that is infinite or NaN. -/
def infOrNan : F64 → Bool
  | fin _ _ _ => false
  | _ => true

end F64

/-! ## The class `TSCNS` -/

/-- The data members of `TSCNS`. -/
structure TSCNS where
  tsc_ghz_inv : F64
  ns_offset : Nat
  base_tsc : Nat
  base_ns : Nat
deriving DecidableEq, Repr

/-- A freshly constructed instance: the default member initialisers. -/
def TSCNS.fresh : TSCNS := ⟨F64.one, 0, 0, 0⟩

/-- The constant `N` of `syncTime`. -/
def syncN : Nat := 10

/-- The cycle-count gap `tscs[i] - tscs[i - 1]` (unsigned). -/
def gap (tscs : Nat → Nat) (i : Nat) : Nat := sub64 (tscs i) (tscs (i - 1))

/-- The loop `for (int i = N - 1; i > 0; i--) if (gap i < gap best) best = i;` from the
value `i` of the loop variable and the current `best`. -/
def bestLoop (tscs : Nat → Nat) : Nat → Nat → Nat
  | 0, best => best
  | i + 1, best => bestLoop tscs i (if gap tscs (i + 1) < gap tscs best then i + 1 else best)

/-- The index `best` that `syncTime` selects. -/
def syncBest (N : Nat) (tscs : Nat → Nat) : Nat := bestLoop tscs (N - 1) N

/-- The pair `(tsc, ns)` that `syncTime` stores through its reference parameters, for the
array contents `tscs[0..N]` and `nses[1..N]`. -/
def syncTime (N : Nat) (tscs nses : Nat → Nat) : Nat × Nat :=
  let best := syncBest N tscs
  (add64 (tscs best) (tscs (best - 1)) / 2, nses best)

/-- The term `(int64_t)((int64_t)tsc * tsc_ghz_inv)` as the unsigned value that takes part
in the 64-bit sum or difference. -/
def scale (tsc : Nat) (inv : F64) : Nat :=
  toU64 (F64.toInt64 (F64.mul (F64.ofInt64 (toI64 tsc)) inv))

/-- The member function `adjustOffset`. -/
def adjustOffset (s : TSCNS) : TSCNS :=
  { s with ns_offset := sub64 s.base_ns (scale s.base_tsc s.tsc_ghz_inv) }

/-- The member function `tsc2ns`. -/
def tsc2ns (s : TSCNS) (tsc : Nat) : Nat := add64 s.ns_offset (scale tsc s.tsc_ghz_inv)

/-- The member function `init`, with the samples its `syncTime` call reads. -/
def init (s : TSCNS) (tsc_ghz : F64) (tscs nses : Nat → Nat) : TSCNS :=
  let p := syncTime syncN tscs nses
  let s1 : TSCNS := { s with base_tsc := p.1, base_ns := p.2 }
  if F64.le0 tsc_ghz then s1
  else adjustOffset { s1 with tsc_ghz_inv := F64.div F64.one tsc_ghz }

/-- The member function `calibrate`, with the samples its `syncTime` call reads: the
returned rate and the new state. -/
def calibrate (s : TSCNS) (tscs nses : Nat → Nat) : F64 × TSCNS :=
  let p := syncTime syncN tscs nses
  let inv := F64.div (F64.ofInt64 (toI64 (sub64 p.2 s.base_ns)))
    (F64.ofInt64 (toI64 (sub64 p.1 s.base_tsc)))
  let s1 := adjustOffset { s with tsc_ghz_inv := inv }
  (F64.div F64.one s1.tsc_ghz_inv, s1)

/-- The samples are 64-bit values: every entry of `tscs[0..N]` and `nses[0..N]` that
`syncTime` may read is below `2 ^ 64`. -/
def Samples64 (N : Nat) (tscs nses : Nat → Nat) : Prop :=
  ∀ i, i ≤ N → tscs i < 2 ^ 64 ∧ nses i < 2 ^ 64

/-- The array contents in which every entry is the same value. -/
def constSamples (v : Nat) : Nat → Nat := fun _ => v

/-- The array contents given by a list (entries past its end read as `0`). -/
def listSamples (l : List Nat) : Nat → Nat := fun i => l.getD i 0

/-- The constant `0.0`. -/
def F64.zero : F64 := F64.fin false 0 (-1074)

/-- The double nearest to the natural number `c`. -/
def F64.ofNat (c : Nat) : F64 := F64.round false c 1 0

/-- The integer part of a finite non-negative double (`0` for every other double). -/
def F64.natTrunc : F64 → Nat
  | F64.fin false m e => truncNat m e
  | _ => 0

/-- A finite non-negative double whose integer part is below `2 ^ 63`, so that its
conversion to `int64_t` is its integer part. -/
def F64.inRange : F64 → Bool
  | F64.fin false m e => decide (truncNat m e < 2 ^ 63)
  | _ => false

/-- The conversion in the words of the specification: `offset + cycle_count * rate_inv`
truncated to an integer nanosecond count, for the unsigned cycle count `c`, with the
product taken in `double`. -/
def affineTrunc (offset c : Nat) (rate_inv : F64) : Nat :=
  offset + F64.natTrunc (F64.mul (F64.ofNat c) rate_inv)

/-- The signed 64-bit difference `(int64_t)(a - b)` of two unsigned 64-bit values. -/
def delta64 (a b : Nat) : Int := toI64 (sub64 a b)

/-- A sequence of `calibrate()` calls, each with the samples its `syncTime` call reads:
the final state. -/
def calibrateAll (s : TSCNS) : List ((Nat → Nat) × (Nat → Nat)) → TSCNS
  | [] => s
  | p :: rest => calibrateAll (calibrate s p.1 p.2).2 rest

/-- The rational value of a finite double (`0` for NaN and the infinities). -/
def F64.toRat : F64 → ℚ
  | F64.fin s m e => if s then -(val m e) else val m e
  | _ => 0

/-- A double that is a zero, `0.0` or `-0.0`. -/
def F64.isZero : F64 → Bool
  | F64.fin _ m _ => decide (m = 0)
  | _ => false

/-- The invariant of the data model, in the 64-bit arithmetic of the source:
`ns_offset = base_ns - (int64_t)((int64_t)base_tsc * tsc_ghz_inv)`. -/
def OffsetInv (s : TSCNS) : Prop :=
  s.ns_offset = sub64 s.base_ns (scale s.base_tsc s.tsc_ghz_inv)

instance (s : TSCNS) : Decidable (OffsetInv s) := by
  unfold OffsetInv; infer_instance

instance (N : Nat) (tscs nses : Nat → Nat) : Decidable (Samples64 N tscs nses) := by
  unfold Samples64; infer_instance

/-! ## Machine arithmetic -/

theorem toU64_lt (i : Int) : toU64 i < 2 ^ 64 := by
  unfold toU64
  have h1 : 0 ≤ i % 2 ^ 64 := Int.emod_nonneg _ (by norm_num)
  have h2 : i % 2 ^ 64 < 2 ^ 64 := Int.emod_lt_of_pos _ (by norm_num)
  omega

theorem scale_lt (tsc : Nat) (inv : F64) : scale tsc inv < 2 ^ 64 := toU64_lt _

theorem add64_sub64_cancel (b x : Nat) (hb : b < 2 ^ 64) (hx : x < 2 ^ 64) :
    add64 (sub64 b x) x = b := by
  unfold add64 sub64
  rw [Nat.mod_eq_of_lt hx]
  omega

theorem sub64_of_le (a b : Nat) (ha : a < 2 ^ 64) (hba : b ≤ a) : sub64 a b = a - b := by
  unfold sub64
  rw [Nat.mod_eq_of_lt (lt_of_le_of_lt hba ha)]
  omega

theorem pos_not_le0 (x : F64) (h : x.pos = true) : x.le0 = false := by
  cases x with
  | nan => simp [F64.pos] at h
  | inf s => cases s <;> simp_all [F64.pos, F64.le0]
  | fin s m e => cases s <;> simp_all [F64.pos, F64.le0]

/-! ## The sampling routine -/

theorem bestLoop_spec (tscs : Nat → Nat) (k best : Nat) :
    gap tscs (bestLoop tscs k best) ≤ gap tscs best ∧
    (∀ i, 1 ≤ i → i ≤ k → gap tscs (bestLoop tscs k best) ≤ gap tscs i) ∧
    (bestLoop tscs k best = best ∨ (1 ≤ bestLoop tscs k best ∧ bestLoop tscs k best ≤ k)) := by
  induction k generalizing best with
  | zero =>
    refine ⟨le_refl _, ?_, Or.inl rfl⟩
    intro i h1 h0
    omega
  | succ k ih =>
    simp only [bestLoop]
    obtain ⟨h1, h2, h3⟩ :=
      ih (if gap tscs (k + 1) < gap tscs best then k + 1 else best)
    split_ifs at h1 h2 h3 ⊢ with hlt
    · refine ⟨by omega, ?_, ?_⟩
      · intro i hi1 hik
        rcases Nat.lt_or_ge i (k + 1) with h | h
        · exact h2 i hi1 (by omega)
        · have : i = k + 1 := by omega
          subst this
          exact h1
      · rcases h3 with h | h
        · right; rw [h]; omega
        · right; omega
    · refine ⟨h1, ?_, ?_⟩
      · intro i hi1 hik
        rcases Nat.lt_or_ge i (k + 1) with h | h
        · exact h2 i hi1 (by omega)
        · have : i = k + 1 := by omega
          subst this
          omega
      · rcases h3 with h | h
        · left; exact h
        · right; omega

theorem syncBest_range (N : Nat) (tscs : Nat → Nat) (hN : 1 ≤ N) :
    1 ≤ syncBest N tscs ∧ syncBest N tscs ≤ N := by
  unfold syncBest
  rcases (bestLoop_spec tscs (N - 1) N).2.2 with h | h
  · rw [h]; omega
  · omega

theorem syncBest_min (N : Nat) (tscs : Nat → Nat) (i : Nat) (h1 : 1 ≤ i) (hN : i ≤ N) :
    gap tscs (syncBest N tscs) ≤ gap tscs i := by
  unfold syncBest
  obtain ⟨ha, hb, -⟩ := bestLoop_spec tscs (N - 1) N
  rcases Nat.lt_or_ge i N with h | h
  · exact hb i h1 (by omega)
  · have : i = N := by omega
    subst this
    exact ha

theorem syncTime_snd_lt (tscs nses : Nat → Nat) (h : Samples64 syncN tscs nses) :
    (syncTime syncN tscs nses).2 < 2 ^ 64 :=
  (h _ (syncBest_range syncN tscs (by decide)).2).2

/-! ## Bit length and rounded division -/

theorem bitLenAux_spec (fuel n : Nat) (hf : n ≤ fuel) (hn : 0 < n) :
    2 ^ (bitLenAux fuel n - 1) ≤ n ∧ n < 2 ^ bitLenAux fuel n ∧ 1 ≤ bitLenAux fuel n := by
  induction fuel generalizing n with
  | zero => omega
  | succ fuel ih =>
    simp only [bitLenAux, if_neg (Nat.pos_iff_ne_zero.mp hn)]
    rcases Nat.eq_zero_or_pos (n / 2) with h0 | hpos
    · have h1 : n = 1 := by omega
      subst h1
      cases fuel <;> simp [bitLenAux]
    · obtain ⟨h1, h2, h3⟩ := ih (n / 2) (by omega) hpos
      refine ⟨?_, ?_, by omega⟩
      · have e : bitLenAux fuel (n / 2) + 1 - 1 = (bitLenAux fuel (n / 2) - 1) + 1 := by omega
        rw [e, pow_succ]
        omega
      · rw [pow_succ]
        omega

theorem bitLen_spec (n : Nat) (hn : 0 < n) :
    2 ^ (bitLen n - 1) ≤ n ∧ n < 2 ^ bitLen n ∧ 1 ≤ bitLen n :=
  bitLenAux_spec n n le_rfl hn

theorem rneDiv_bounds (n d : Nat) : n / d ≤ rneDiv n d ∧ rneDiv n d ≤ n / d + 1 := by
  unfold rneDiv
  simp only
  split_ifs <;> omega

theorem rneDiv_exact (q d : Nat) (hd : 0 < d) : rneDiv (q * d) d = q := by
  unfold rneDiv
  simp [Nat.mul_mod_left, Nat.mul_div_cancel _ hd, hd]

theorem rneDiv_mono (n1 d1 n2 d2 : Nat) (hd1 : 0 < d1) (hd2 : 0 < d2)
    (h : n1 * d2 ≤ n2 * d1) : rneDiv n1 d1 ≤ rneDiv n2 d2 := by
  have hq : n1 / d1 ≤ n2 / d2 := by
    rw [Nat.le_div_iff_mul_le hd2]
    have h1 : n1 / d1 * d1 ≤ n1 := Nat.div_mul_le_self n1 d1
    have h2 : n1 / d1 * d2 * d1 ≤ n2 * d1 := by
      calc n1 / d1 * d2 * d1 = (n1 / d1 * d1) * d2 := by ring
        _ ≤ n1 * d2 := Nat.mul_le_mul_right _ h1
        _ ≤ n2 * d1 := h
    exact Nat.le_of_mul_le_mul_right h2 hd1
  obtain ⟨a1, a2⟩ := rneDiv_bounds n1 d1
  obtain ⟨b1, b2⟩ := rneDiv_bounds n2 d2
  rcases Nat.lt_or_ge (n1 / d1) (n2 / d2) with hlt | hge
  · omega
  · have heq : n1 / d1 = n2 / d2 := le_antisymm hq hge
    have e1 := Nat.div_add_mod n1 d1
    have e2 := Nat.div_add_mod n2 d2
    have hr : n1 % d1 * d2 ≤ n2 % d2 * d1 := by
      have : (d1 * (n1 / d1) + n1 % d1) * d2 ≤ (d2 * (n2 / d2) + n2 % d2) * d1 := by
        rw [e1, e2]; exact h
      rw [heq] at this
      nlinarith
    unfold rneDiv
    simp only
    rw [heq]
    have key1 : d1 < 2 * (n1 % d1) → d2 < 2 * (n2 % d2) := by
      intro h1
      by_contra hc
      push_neg at hc
      nlinarith
    have key2 : d1 ≤ 2 * (n1 % d1) → d2 ≤ 2 * (n2 % d2) := by
      intro h1
      by_contra hc
      push_neg at hc
      nlinarith
    split_ifs <;> omega

/-! ## Rounding -/

theorem two_zpow_split (z : Int) : (2 : ℚ) ^ z = (2 : ℚ) ^ z.toNat / (2 : ℚ) ^ (-z).toNat := by
  rcases le_or_lt 0 z with h | h
  · have h1 : (-z).toNat = 0 := by omega
    have h2 : (z.toNat : Int) = z := Int.toNat_of_nonneg h
    rw [h1, pow_zero, div_one, ← zpow_natCast, h2]
  · have h1 : z.toNat = 0 := by omega
    have h2 : ((-z).toNat : Int) = -z := Int.toNat_of_nonneg (by omega)
    rw [h1, pow_zero, one_div, ← zpow_natCast, h2, zpow_neg, inv_inv]

theorem two_zpow_pos (z : Int) : (0 : ℚ) < (2 : ℚ) ^ z := zpow_pos (by norm_num) z

theorem two_zpow_le {a b : Int} (h : a ≤ b) : (2 : ℚ) ^ a ≤ (2 : ℚ) ^ b :=
  zpow_le_zpow_right₀ (by norm_num) h

theorem two_zpow_lt_imp {a b : Int} (h : (2 : ℚ) ^ a < (2 : ℚ) ^ b) : a < b := by
  by_contra hc
  push_neg at hc
  exact absurd (two_zpow_le hc) (not_le.mpr h)

/-- The scaled quotient as a rational number. -/
theorem scaled_eq (n d : Nat) (s : Int) (hd : 0 < d) :
    ((n * 2 ^ s.toNat : Nat) : ℚ) / ((d * 2 ^ (-s).toNat : Nat) : ℚ)
      = (n : ℚ) / (d : ℚ) * (2 : ℚ) ^ s := by
  have hd' : (d : ℚ) ≠ 0 := by positivity
  rw [two_zpow_split s]
  push_cast
  field_simp

theorem rndLg_spec (n d : Nat) (hn : 0 < n) (hd : 0 < d) :
    (2 : ℚ) ^ (rndLg n d) ≤ (n : ℚ) / (d : ℚ) ∧ (n : ℚ) / (d : ℚ) < (2 : ℚ) ^ (rndLg n d + 1) := by
  obtain ⟨a1, a2, a3⟩ := bitLen_spec n hn
  obtain ⟨b1, b2, b3⟩ := bitLen_spec d hd
  have hdq : (0 : ℚ) < (d : ℚ) := by exact_mod_cast hd
  have hnq : (0 : ℚ) < (n : ℚ) := by exact_mod_cast hn
  -- bounds in ℚ with integer exponents
  have A1 : (2 : ℚ) ^ ((bitLen n : Int) - 1) ≤ (n : ℚ) := by
    have : ((bitLen n : Int) - 1) = ((bitLen n - 1 : Nat) : Int) := by omega
    rw [this, zpow_natCast]
    exact_mod_cast a1
  have A2 : (n : ℚ) < (2 : ℚ) ^ (bitLen n : Int) := by
    rw [zpow_natCast]
    exact_mod_cast a2
  have B1 : (2 : ℚ) ^ ((bitLen d : Int) - 1) ≤ (d : ℚ) := by
    have : ((bitLen d : Int) - 1) = ((bitLen d - 1 : Nat) : Int) := by omega
    rw [this, zpow_natCast]
    exact_mod_cast b1
  have B2 : (d : ℚ) < (2 : ℚ) ^ (bitLen d : Int) := by
    rw [zpow_natCast]
    exact_mod_cast b2
  have two_ne : (2 : ℚ) ≠ 0 := by norm_num
  -- n / d < 2 ^ (L + 1) and 2 ^ (L - 1) ≤ n / d
  have U : (n : ℚ) / (d : ℚ) < (2 : ℚ) ^ ((bitLen n : Int) - (bitLen d : Int) + 1) := by
    rw [div_lt_iff₀ hdq]
    calc (n : ℚ) < (2 : ℚ) ^ (bitLen n : Int) := A2
      _ = (2 : ℚ) ^ ((bitLen n : Int) - (bitLen d : Int) + 1) * (2 : ℚ) ^ ((bitLen d : Int) - 1) := by
          rw [← zpow_add₀ two_ne]; congr 1; ring
      _ ≤ (2 : ℚ) ^ ((bitLen n : Int) - (bitLen d : Int) + 1) * (d : ℚ) :=
          mul_le_mul_of_nonneg_left B1 (le_of_lt (two_zpow_pos _))
  have Lo : (2 : ℚ) ^ ((bitLen n : Int) - (bitLen d : Int) - 1) ≤ (n : ℚ) / (d : ℚ) := by
    rw [le_div_iff₀ hdq]
    calc (2 : ℚ) ^ ((bitLen n : Int) - (bitLen d : Int) - 1) * (d : ℚ)
        ≤ (2 : ℚ) ^ ((bitLen n : Int) - (bitLen d : Int) - 1) * (2 : ℚ) ^ (bitLen d : Int) :=
          mul_le_mul_of_nonneg_left (le_of_lt B2) (le_of_lt (two_zpow_pos _))
      _ = (2 : ℚ) ^ ((bitLen n : Int) - 1) := by
          rw [← zpow_add₀ two_ne]; congr 1; ring
      _ ≤ (n : ℚ) := A1
  unfold rndLg
  simp only
  split_ifs with hc
  · refine ⟨?_, U⟩
    rw [le_div_iff₀ hdq, two_zpow_split, div_mul_eq_mul_div, div_le_iff₀ (by positivity)]
    have : ((d * 2 ^ ((bitLen n : Int) - (bitLen d : Int)).toNat : Nat) : ℚ)
        ≤ ((n * 2 ^ (-((bitLen n : Int) - (bitLen d : Int))).toNat : Nat) : ℚ) := by
      exact_mod_cast hc
    push_cast at this
    linarith
  · refine ⟨Lo, ?_⟩
    push_neg at hc
    have e : (bitLen n : Int) - (bitLen d : Int) - 1 + 1 = (bitLen n : Int) - (bitLen d : Int) := by
      ring
    rw [e, div_lt_iff₀ hdq, two_zpow_split, div_mul_eq_mul_div, lt_div_iff₀ (by positivity)]
    have : ((n * 2 ^ (-((bitLen n : Int) - (bitLen d : Int))).toNat : Nat) : ℚ)
        < ((d * 2 ^ ((bitLen n : Int) - (bitLen d : Int)).toNat : Nat) : ℚ) := by
      exact_mod_cast hc
    push_cast at this
    linarith

theorem rndE_spec (n d : Nat) (k : Int) (hn : 0 < n) (hd : 0 < d) :
    -1074 ≤ rndE n d k ∧
    (n : ℚ) / (d : ℚ) * (2 : ℚ) ^ k < (2 : ℚ) ^ (rndE n d k + 53) ∧
    (-1074 < rndE n d k → (2 : ℚ) ^ (rndE n d k + 52) ≤ (n : ℚ) / (d : ℚ) * (2 : ℚ) ^ k) := by
  obtain ⟨h1, h2⟩ := rndLg_spec n d hn hd
  have two_ne : (2 : ℚ) ≠ 0 := by norm_num
  have hk := two_zpow_pos k
  refine ⟨le_max_right _ _, ?_, ?_⟩
  · calc (n : ℚ) / (d : ℚ) * (2 : ℚ) ^ k < (2 : ℚ) ^ (rndLg n d + 1) * (2 : ℚ) ^ k :=
          mul_lt_mul_of_pos_right h2 hk
      _ = (2 : ℚ) ^ (rndLg n d + 1 + k) := (zpow_add₀ two_ne _ _).symm
      _ ≤ (2 : ℚ) ^ (rndE n d k + 53) := by
          apply two_zpow_le
          have : rndLg n d + k - 52 ≤ rndE n d k := le_max_left _ _
          omega
  · intro hE
    have e : rndE n d k = rndLg n d + k - 52 := by
      unfold rndE at hE ⊢
      rcases max_cases (rndLg n d + k - 52) (-1074) with ⟨h, _⟩ | ⟨h, _⟩
      · exact h
      · rw [h] at hE; omega
    calc (2 : ℚ) ^ (rndE n d k + 52) = (2 : ℚ) ^ (rndLg n d) * (2 : ℚ) ^ k := by
          rw [← zpow_add₀ two_ne, e]; congr 1; ring
      _ ≤ (n : ℚ) / (d : ℚ) * (2 : ℚ) ^ k := mul_le_mul_of_nonneg_right h1 (le_of_lt hk)

/-- The quotient that `rndM` rounds is `(n / d) * 2 ^ k / 2 ^ rndE n d k`. -/
theorem rndM_arg (n d : Nat) (k : Int) (hd : 0 < d) :
    ((n * 2 ^ (k - rndE n d k).toNat : Nat) : ℚ) / ((d * 2 ^ (-(k - rndE n d k)).toNat : Nat) : ℚ)
      = (n : ℚ) / (d : ℚ) * (2 : ℚ) ^ k / (2 : ℚ) ^ (rndE n d k) := by
  rw [scaled_eq n d _ hd, zpow_sub₀ (by norm_num : (2 : ℚ) ≠ 0)]
  ring

theorem rneDiv_le_of_lt (N D B : Nat) (hD : 0 < D) (h : (N : ℚ) / (D : ℚ) < (B : ℚ)) :
    rneDiv N D ≤ B := by
  have hDq : (0 : ℚ) < (D : ℚ) := by exact_mod_cast hD
  rw [div_lt_iff₀ hDq] at h
  have h' : N < B * D := by exact_mod_cast h
  have := rneDiv_mono N D (B * D) D hD hD (Nat.mul_le_mul_right D (le_of_lt h'))
  rwa [rneDiv_exact B D hD] at this

theorem le_rneDiv_of_le (N D B : Nat) (hD : 0 < D) (h : (B : ℚ) ≤ (N : ℚ) / (D : ℚ)) :
    B ≤ rneDiv N D := by
  have hDq : (0 : ℚ) < (D : ℚ) := by exact_mod_cast hD
  rw [le_div_iff₀ hDq] at h
  have h' : B * D ≤ N := by exact_mod_cast h
  have := rneDiv_mono (B * D) D N D hD hD (Nat.mul_le_mul_right D h')
  rwa [rneDiv_exact B D hD] at this

theorem rndM_den_pos (d : Nat) (s : Int) (hd : 0 < d) : 0 < d * 2 ^ (-s).toNat :=
  Nat.mul_pos hd (pow_pos (by norm_num) _)

theorem rndM_le (n d : Nat) (k : Int) (hn : 0 < n) (hd : 0 < d) : rndM n d k ≤ 2 ^ 53 := by
  obtain ⟨-, h2, -⟩ := rndE_spec n d k hn hd
  unfold rndM
  apply rneDiv_le_of_lt _ _ _ (rndM_den_pos d _ hd)
  rw [rndM_arg n d k hd, div_lt_iff₀ (two_zpow_pos _)]
  have : ((2 ^ 53 : Nat) : ℚ) * (2 : ℚ) ^ (rndE n d k) = (2 : ℚ) ^ (rndE n d k + 53) := by
    rw [zpow_add₀ (by norm_num : (2 : ℚ) ≠ 0)]
    norm_num
    ring
  rw [this]
  exact h2

theorem le_rndM (n d : Nat) (k : Int) (hn : 0 < n) (hd : 0 < d) (hE : -1074 < rndE n d k) :
    2 ^ 52 ≤ rndM n d k := by
  obtain ⟨-, -, h3⟩ := rndE_spec n d k hn hd
  unfold rndM
  apply le_rneDiv_of_le _ _ _ (rndM_den_pos d _ hd)
  rw [rndM_arg n d k hd, le_div_iff₀ (two_zpow_pos _)]
  have : ((2 ^ 52 : Nat) : ℚ) * (2 : ℚ) ^ (rndE n d k) = (2 : ℚ) ^ (rndE n d k + 52) := by
    rw [zpow_add₀ (by norm_num : (2 : ℚ) ≠ 0)]
    norm_num
    ring
  rw [this]
  exact h3 hE

theorem rndE_mono (n1 d1 n2 d2 : Nat) (k1 k2 : Int) (hn1 : 0 < n1) (hd1 : 0 < d1)
    (hn2 : 0 < n2) (hd2 : 0 < d2)
    (h : (n1 : ℚ) / (d1 : ℚ) * (2 : ℚ) ^ k1 ≤ (n2 : ℚ) / (d2 : ℚ) * (2 : ℚ) ^ k2) :
    rndE n1 d1 k1 ≤ rndE n2 d2 k2 := by
  obtain ⟨a1, -, a3⟩ := rndE_spec n1 d1 k1 hn1 hd1
  obtain ⟨b1, b2, -⟩ := rndE_spec n2 d2 k2 hn2 hd2
  rcases eq_or_lt_of_le a1 with he | hlt
  · rw [← he]; exact b1
  · have := two_zpow_lt_imp (lt_of_le_of_lt (le_trans (a3 hlt) h) b2)
    omega

theorem rndM_mono_of_eq (n1 d1 n2 d2 : Nat) (k1 k2 : Int) (hd1 : 0 < d1) (hd2 : 0 < d2)
    (h : (n1 : ℚ) / (d1 : ℚ) * (2 : ℚ) ^ k1 ≤ (n2 : ℚ) / (d2 : ℚ) * (2 : ℚ) ^ k2)
    (he : rndE n1 d1 k1 = rndE n2 d2 k2) : rndM n1 d1 k1 ≤ rndM n2 d2 k2 := by
  have hD1 := rndM_den_pos d1 (k1 - rndE n1 d1 k1) hd1
  have hD2 := rndM_den_pos d2 (k2 - rndE n2 d2 k2) hd2
  unfold rndM
  apply rneDiv_mono _ _ _ _ hD1 hD2
  have hq : ((n1 * 2 ^ (k1 - rndE n1 d1 k1).toNat : Nat) : ℚ)
        / ((d1 * 2 ^ (-(k1 - rndE n1 d1 k1)).toNat : Nat) : ℚ)
      ≤ ((n2 * 2 ^ (k2 - rndE n2 d2 k2).toNat : Nat) : ℚ)
        / ((d2 * 2 ^ (-(k2 - rndE n2 d2 k2)).toNat : Nat) : ℚ) := by
    rw [rndM_arg n1 d1 k1 hd1, rndM_arg n2 d2 k2 hd2, he]
    exact div_le_div_of_nonneg_right h (le_of_lt (two_zpow_pos _))
  rw [div_le_div_iff₀ (by exact_mod_cast hD1) (by exact_mod_cast hD2)] at hq
  exact_mod_cast hq

/-- Rounding is monotone: the rounded value `rndM * 2 ^ rndE` is non-decreasing in the
rational number being rounded. -/
theorem rndVal_mono (n1 d1 n2 d2 : Nat) (k1 k2 : Int) (hn1 : 0 < n1) (hd1 : 0 < d1)
    (hn2 : 0 < n2) (hd2 : 0 < d2)
    (h : (n1 : ℚ) / (d1 : ℚ) * (2 : ℚ) ^ k1 ≤ (n2 : ℚ) / (d2 : ℚ) * (2 : ℚ) ^ k2) :
    val (rndM n1 d1 k1) (rndE n1 d1 k1) ≤ val (rndM n2 d2 k2) (rndE n2 d2 k2) := by
  have hE := rndE_mono n1 d1 n2 d2 k1 k2 hn1 hd1 hn2 hd2 h
  unfold val
  rcases eq_or_lt_of_le hE with he | hlt
  · -- same exponent: the significands are ordered
    have hM : rndM n1 d1 k1 ≤ rndM n2 d2 k2 :=
      rndM_mono_of_eq n1 d1 n2 d2 k1 k2 hd1 hd2 h he
    rw [he]
    exact mul_le_mul_of_nonneg_right (by exact_mod_cast hM) (le_of_lt (two_zpow_pos _))
  · -- a smaller exponent: compare with the power of two between them
    have hM1 := rndM_le n1 d1 k1 hn1 hd1
    have hE2 : -1074 < rndE n2 d2 k2 := lt_of_le_of_lt (rndE_spec n1 d1 k1 hn1 hd1).1 hlt
    have hM2 := le_rndM n2 d2 k2 hn2 hd2 hE2
    have two_ne : (2 : ℚ) ≠ 0 := by norm_num
    calc (rndM n1 d1 k1 : ℚ) * (2 : ℚ) ^ (rndE n1 d1 k1)
        ≤ ((2 ^ 53 : Nat) : ℚ) * (2 : ℚ) ^ (rndE n1 d1 k1) :=
          mul_le_mul_of_nonneg_right (by exact_mod_cast hM1) (le_of_lt (two_zpow_pos _))
      _ = (2 : ℚ) ^ (rndE n1 d1 k1 + 53) := by
          rw [zpow_add₀ two_ne]; norm_num; ring
      _ ≤ (2 : ℚ) ^ (rndE n2 d2 k2 + 52) := two_zpow_le (by omega)
      _ = ((2 ^ 52 : Nat) : ℚ) * (2 : ℚ) ^ (rndE n2 d2 k2) := by
          rw [zpow_add₀ two_ne]; norm_num; ring
      _ ≤ (rndM n2 d2 k2 : ℚ) * (2 : ℚ) ^ (rndE n2 d2 k2) :=
          mul_le_mul_of_nonneg_right (by exact_mod_cast hM2) (le_of_lt (two_zpow_pos _))

theorem rneDiv_zero (d : Nat) (hd : 0 < d) : rneDiv 0 d = 0 := by
  have := rneDiv_exact 0 d hd
  simpa using this

theorem rndM_zero (d : Nat) (k : Int) (hd : 0 < d) : rndM 0 d k = 0 := by
  unfold rndM
  rw [Nat.zero_mul]
  exact rneDiv_zero _ (rndM_den_pos d _ hd)

theorem val_nonneg (m : Nat) (e : Int) : 0 ≤ val m e :=
  mul_nonneg (Nat.cast_nonneg m) (le_of_lt (two_zpow_pos e))

theorem val_pow (j : Nat) (e : Int) : val (2 ^ j) e = (2 : ℚ) ^ (e + (j : Int)) := by
  unfold val
  rw [zpow_add₀ (by norm_num : (2 : ℚ) ≠ 0), zpow_natCast]
  push_cast
  ring

theorem val_le_pow (m j : Nat) (e : Int) (h : m ≤ 2 ^ j) : val m e ≤ (2 : ℚ) ^ (e + (j : Int)) := by
  rw [← val_pow]
  exact mul_le_mul_of_nonneg_right (by exact_mod_cast h) (le_of_lt (two_zpow_pos e))

theorem val_lt_pow (m j : Nat) (e : Int) (h : m < 2 ^ j) : val m e < (2 : ℚ) ^ (e + (j : Int)) := by
  rw [← val_pow]
  exact mul_lt_mul_of_pos_right (by exact_mod_cast h) (two_zpow_pos e)

theorem pow_le_val (m j : Nat) (e : Int) (h : 2 ^ j ≤ m) : (2 : ℚ) ^ (e + (j : Int)) ≤ val m e := by
  rw [← val_pow]
  exact mul_le_mul_of_nonneg_right (by exact_mod_cast h) (le_of_lt (two_zpow_pos e))

/-- The two shapes of a rounded result: an infinity when the rounded value reaches
`2 ^ 1024`, and otherwise the finite double with that value. -/
theorem round_cases (neg : Bool) (n d : Nat) (k : Int) (hd : 0 < d) :
    (F64.round neg n d k = F64.inf neg ∧
      (2 : ℚ) ^ (1024 : Int) ≤ val (rndM n d k) (rndE n d k)) ∨
    (∃ M E, F64.round neg n d k = F64.fin neg M E ∧
      val M E = val (rndM n d k) (rndE n d k) ∧ val M E < (2 : ℚ) ^ (1024 : Int)) := by
  rcases Nat.eq_zero_or_pos n with h0 | hn
  · subst h0
    right
    refine ⟨0, -1074, by simp [F64.round], ?_, ?_⟩
    · rw [rndM_zero d k hd]; simp [val]
    · simp only [val, Nat.cast_zero, zero_mul]; exact two_zpow_pos _
  · have hM := rndM_le n d k hn hd
    have hM' := le_rndM n d k hn hd
    unfold F64.round
    rw [if_neg (Nat.pos_iff_ne_zero.mp hn)]
    simp only
    split_ifs with h1 h2 h3
    · left
      refine ⟨rfl, ?_⟩
      rw [h1]
      have := val_pow 53 (rndE n d k)
      rw [this]
      exact two_zpow_le (by omega)
    · right
      refine ⟨2 ^ 52, rndE n d k + 1, rfl, ?_, ?_⟩
      · rw [h1, val_pow, val_pow]; congr 1; push_cast; ring
      · rw [val_pow]
        have : (2 : ℚ) ^ (rndE n d k + 1 + ((52 : Nat) : Int)) ≤ (2 : ℚ) ^ (1023 : Int) :=
          two_zpow_le (by push_cast; omega)
        exact lt_of_le_of_lt this (by norm_num)
    · left
      refine ⟨rfl, ?_⟩
      have := pow_le_val _ 52 (rndE n d k) (hM' (by omega))
      exact le_trans (two_zpow_le (by push_cast; omega)) this
    · right
      refine ⟨rndM n d k, rndE n d k, rfl, rfl, ?_⟩
      have hlt : rndM n d k < 2 ^ 53 := lt_of_le_of_ne hM h1
      exact lt_of_lt_of_le (val_lt_pow _ 53 _ hlt) (two_zpow_le (by push_cast; omega))

theorem truncNat_eq_floor (m : Nat) (e : Int) : truncNat m e = ⌊val m e⌋₊ := by
  unfold truncNat val
  split_ifs with h
  · have h2 : (e.toNat : Int) = e := Int.toNat_of_nonneg h
    have : (m : ℚ) * (2 : ℚ) ^ e = ((m * 2 ^ e.toNat : Nat) : ℚ) := by
      push_cast
      rw [← zpow_natCast, h2]
    rw [this, Nat.floor_natCast]
  · have h2 : ((-e).toNat : Int) = -e := Int.toNat_of_nonneg (by omega)
    have : (m : ℚ) * (2 : ℚ) ^ e = (m : ℚ) / ((2 ^ (-e).toNat : Nat) : ℚ) := by
      push_cast
      rw [← zpow_natCast, h2, zpow_neg, div_eq_mul_inv, inv_inv]
    rw [this, Nat.floor_div_eq_div]

theorem toU64_toInt64_fin (m : Nat) (e : Int) :
    toU64 (F64.toInt64 (F64.fin false m e)) = min (truncNat m e) (2 ^ 63) := by
  unfold F64.toInt64 toU64
  simp only [Bool.false_eq_true, if_false]
  split_ifs with h
  · have : truncNat m e < 2 ^ 63 := by omega
    rw [min_eq_left (le_of_lt this)]
    omega
  · have : 2 ^ 63 ≤ truncNat m e := by omega
    rw [min_eq_right this]
    decide

theorem toU64_toInt64_inf (s : Bool) : toU64 (F64.toInt64 (F64.inf s)) = 2 ^ 63 := by
  cases s <;> decide

theorem toU64_toInt64_nan : toU64 (F64.toInt64 F64.nan) = 2 ^ 63 := by decide

/-- The unsigned 64-bit integer obtained from a rounded non-negative value. -/
theorem toU64_toInt64_round (n d : Nat) (k : Int) (hd : 0 < d) :
    toU64 (F64.toInt64 (F64.round false n d k))
      = min ⌊val (rndM n d k) (rndE n d k)⌋₊ (2 ^ 63) := by
  rcases round_cases false n d k hd with ⟨h, hv⟩ | ⟨M, E, h, hv, -⟩
  · rw [h, toU64_toInt64_inf]
    symm
    apply min_eq_right
    have h1 : ((2 ^ 63 : Nat) : ℚ) ≤ val (rndM n d k) (rndE n d k) := by
      refine le_trans ?_ hv
      norm_num
    exact Nat.le_floor h1
  · rw [h, toU64_toInt64_fin, truncNat_eq_floor, hv]

/-! ## The conversion term is monotone -/

theorem toI64_of_lt (c : Nat) (h : c < 2 ^ 63) : toI64 c = (c : Int) := by
  unfold toI64
  have : c % 2 ^ 64 = c := Nat.mod_eq_of_lt (by omega)
  rw [this, if_pos h]

theorem ofInt64_natCast (c : Nat) : F64.ofInt64 (c : Int) = F64.round false c 1 0 := by
  unfold F64.ofInt64
  have h1 : decide ((c : Int) < 0) = false := by simp
  rw [h1, Int.natAbs_ofNat]

theorem rndVal_zero (d : Nat) (k : Int) (hd : 0 < d) : val (rndM 0 d k) (rndE 0 d k) = 0 := by
  rw [rndM_zero d k hd]
  simp [val]

/-- Rounding is monotone, zero included. -/
theorem rndVal_mono_zero (n1 d1 n2 d2 : Nat) (k1 k2 : Int) (hd1 : 0 < d1) (hd2 : 0 < d2)
    (h : (n1 : ℚ) / (d1 : ℚ) * (2 : ℚ) ^ k1 ≤ (n2 : ℚ) / (d2 : ℚ) * (2 : ℚ) ^ k2) :
    val (rndM n1 d1 k1) (rndE n1 d1 k1) ≤ val (rndM n2 d2 k2) (rndE n2 d2 k2) := by
  rcases Nat.eq_zero_or_pos n1 with h1 | h1
  · subst h1
    rw [rndVal_zero d1 k1 hd1]
    exact val_nonneg _ _
  · rcases Nat.eq_zero_or_pos n2 with h2 | h2
    · subst h2
      exfalso
      have hp : (0 : ℚ) < (n1 : ℚ) / (d1 : ℚ) * (2 : ℚ) ^ k1 :=
        mul_pos (div_pos (by exact_mod_cast h1) (by exact_mod_cast hd1)) (two_zpow_pos _)
      simp at h
      linarith
    · exact rndVal_mono n1 d1 n2 d2 k1 k2 h1 hd1 h2 hd2 h

/-- The double of a natural number below `2 ^ 63` is finite and non-negative. -/
theorem round_nat_fin (c : Nat) (h : c < 2 ^ 63) :
    ∃ M E, F64.round false c 1 0 = F64.fin false M E ∧
      val M E = val (rndM c 1 0) (rndE c 1 0) := by
  rcases round_cases false c 1 0 Nat.one_pos with ⟨-, hv⟩ | ⟨M, E, h1, h2, -⟩
  · exfalso
    rcases Nat.eq_zero_or_pos c with h0 | hc
    · subst h0
      rw [rndVal_zero 1 0 Nat.one_pos] at hv
      exact absurd hv (not_le.mpr (two_zpow_pos _))
    · obtain ⟨e1, -, e3⟩ := rndE_spec c 1 0 hc Nat.one_pos
      have hM := rndM_le c 1 0 hc Nat.one_pos
      have hE : rndE c 1 0 ≤ 11 := by
        by_contra hcon
        push_neg at hcon
        have h3 := e3 (by omega)
        have h4 : ((c : ℚ) / ((1 : Nat) : ℚ)) * (2 : ℚ) ^ (0 : Int) < (2 : ℚ) ^ (63 : Int) := by
          simp only [Nat.cast_one, div_one, zpow_zero, mul_one]
          have : (c : ℚ) < ((2 ^ 63 : Nat) : ℚ) := by exact_mod_cast h
          rw [show ((2 : ℚ) ^ (63 : Int)) = ((2 ^ 63 : Nat) : ℚ) by norm_num]
          exact this
        have := two_zpow_lt_imp (lt_of_le_of_lt h3 h4)
        omega
      have h5 := val_le_pow _ 53 (rndE c 1 0) hM
      have h6 : (2 : ℚ) ^ (rndE c 1 0 + ((53 : Nat) : Int)) ≤ (2 : ℚ) ^ (64 : Int) :=
        two_zpow_le (by push_cast; omega)
      have h7 : (2 : ℚ) ^ (64 : Int) < (2 : ℚ) ^ (1024 : Int) := by norm_num
      linarith
  · exact ⟨M, E, h1, h2⟩

/-- The term `(int64_t)((int64_t)tsc * tsc_ghz_inv)` is non-decreasing in `tsc` below
`2 ^ 63` when `tsc_ghz_inv > 0`. -/
theorem scale_mono (c1 c2 : Nat) (inv : F64) (h12 : c1 ≤ c2) (h2 : c2 < 2 ^ 63)
    (hpos : inv.pos = true) : scale c1 inv ≤ scale c2 inv := by
  have h1 : c1 < 2 ^ 63 := lt_of_le_of_lt h12 h2
  unfold scale
  rw [toI64_of_lt c1 h1, toI64_of_lt c2 h2, ofInt64_natCast, ofInt64_natCast]
  obtain ⟨M1, E1, r1, v1⟩ := round_nat_fin c1 h1
  obtain ⟨M2, E2, r2, v2⟩ := round_nat_fin c2 h2
  rw [r1, r2]
  have hv : val M1 E1 ≤ val M2 E2 := by
    rw [v1, v2]
    apply rndVal_mono_zero _ _ _ _ _ _ Nat.one_pos Nat.one_pos
    have : (c1 : ℚ) ≤ (c2 : ℚ) := by exact_mod_cast h12
    simpa using this
  cases inv with
  | nan => simp [F64.pos] at hpos
  | inf s =>
    have hs : s = false := by simpa [F64.pos] using hpos
    subst hs
    have key : ∀ M E, toU64 (F64.toInt64 (F64.mul (F64.fin false M E) (F64.inf false)))
        = 2 ^ 63 := by
      intro M E
      have hm : F64.mul (F64.fin false M E) (F64.inf false)
          = if M = 0 then F64.nan else F64.inf (xor false false) := rfl
      rw [hm]
      split_ifs
      · exact toU64_toInt64_nan
      · exact toU64_toInt64_inf _
    rw [key, key]
  | fin s m e =>
    have hs : s = false := by
      cases s
      · rfl
      · simp [F64.pos] at hpos
    subst hs
    have hm : ∀ M E, F64.mul (F64.fin false M E) (F64.fin false m e)
        = F64.round false (M * m) 1 (E + e) := fun _ _ => rfl
    rw [hm, hm, toU64_toInt64_round _ _ _ Nat.one_pos, toU64_toInt64_round _ _ _ Nat.one_pos]
    apply min_le_min _ le_rfl
    apply Nat.floor_mono
    apply rndVal_mono_zero _ _ _ _ _ _ Nat.one_pos Nat.one_pos
    have e1 : ((M1 * m : Nat) : ℚ) / ((1 : Nat) : ℚ) * (2 : ℚ) ^ (E1 + e) = val M1 E1 * val m e := by
      unfold val
      rw [zpow_add₀ (by norm_num : (2 : ℚ) ≠ 0)]
      push_cast
      ring
    have e2 : ((M2 * m : Nat) : ℚ) / ((1 : Nat) : ℚ) * (2 : ℚ) ^ (E2 + e) = val M2 E2 * val m e := by
      unfold val
      rw [zpow_add₀ (by norm_num : (2 : ℚ) ≠ 0)]
      push_cast
      ring
    rw [e1, e2]
    exact mul_le_mul_of_nonneg_right hv (val_nonneg _ _)

/-! ## Rounding depends on the value only, and keeps a representable value -/

/-- The rounded double depends only on the rational number that is rounded. -/
theorem round_congr (neg : Bool) (n1 d1 n2 d2 : Nat) (k1 k2 : Int) (hd1 : 0 < d1)
    (hd2 : 0 < d2)
    (h : (n1 : ℚ) / (d1 : ℚ) * (2 : ℚ) ^ k1 = (n2 : ℚ) / (d2 : ℚ) * (2 : ℚ) ^ k2) :
    F64.round neg n1 d1 k1 = F64.round neg n2 d2 k2 := by
  have hd1q : (0 : ℚ) < (d1 : ℚ) := by exact_mod_cast hd1
  have hd2q : (0 : ℚ) < (d2 : ℚ) := by exact_mod_cast hd2
  have hz : n1 = 0 ↔ n2 = 0 := by
    constructor
    · intro h0
      subst h0
      simp only [Nat.cast_zero, zero_div, zero_mul] at h
      have h2 := h.symm
      rcases mul_eq_zero.mp h2 with h3 | h3
      · rcases div_eq_zero_iff.mp h3 with h4 | h4
        · exact_mod_cast h4
        · exact absurd h4 (ne_of_gt hd2q)
      · exact absurd h3 (ne_of_gt (two_zpow_pos _))
    · intro h0
      subst h0
      simp only [Nat.cast_zero, zero_div, zero_mul] at h
      rcases mul_eq_zero.mp h with h3 | h3
      · rcases div_eq_zero_iff.mp h3 with h4 | h4
        · exact_mod_cast h4
        · exact absurd h4 (ne_of_gt hd1q)
      · exact absurd h3 (ne_of_gt (two_zpow_pos _))
  rcases Nat.eq_zero_or_pos n1 with h1 | h1
  · have h2 := hz.mp h1
    subst h1 h2
    simp [F64.round]
  · have h2 : 0 < n2 := Nat.pos_of_ne_zero (fun h0 => absurd (hz.mpr h0) (Nat.pos_iff_ne_zero.mp h1))
    have hE : rndE n1 d1 k1 = rndE n2 d2 k2 :=
      le_antisymm (rndE_mono n1 d1 n2 d2 k1 k2 h1 hd1 h2 hd2 (le_of_eq h))
        (rndE_mono n2 d2 n1 d1 k2 k1 h2 hd2 h1 hd1 (le_of_eq h.symm))
    have hM : rndM n1 d1 k1 = rndM n2 d2 k2 :=
      le_antisymm (rndM_mono_of_eq n1 d1 n2 d2 k1 k2 hd1 hd2 (le_of_eq h) hE)
        (rndM_mono_of_eq n2 d2 n1 d1 k2 k1 hd2 hd1 (le_of_eq h.symm) hE.symm)
    unfold F64.round
    rw [if_neg (Nat.pos_iff_ne_zero.mp h1), if_neg (Nat.pos_iff_ne_zero.mp h2), hE, hM]

/-- A value `m * 2 ^ e` with `m < 2 ^ 53` and `e ≥ -1074` is kept by rounding. -/
theorem rndVal_exact (m : Nat) (e : Int) (hm : m < 2 ^ 53) (he : -1074 ≤ e) :
    val (rndM m 1 e) (rndE m 1 e) = val m e := by
  rcases Nat.eq_zero_or_pos m with h0 | hpos
  · subst h0
    rw [rndVal_zero 1 e Nat.one_pos]
    simp [val]
  · obtain ⟨e1, -, e3⟩ := rndE_spec m 1 e hpos Nat.one_pos
    have hE : rndE m 1 e ≤ e := by
      rcases eq_or_lt_of_le e1 with h | h
      · rw [← h]; exact he
      · have h3 := e3 h
        have h4 : ((m : ℚ) / ((1 : Nat) : ℚ)) * (2 : ℚ) ^ e < (2 : ℚ) ^ (e + ((53 : Nat) : Int)) := by
          simp only [Nat.cast_one, div_one]
          exact val_lt_pow m 53 e hm
        have := two_zpow_lt_imp (lt_of_le_of_lt h3 h4)
        push_cast at this
        omega
    have hs : (-(e - rndE m 1 e)).toNat = 0 := by omega
    have hM : rndM m 1 e = m * 2 ^ (e - rndE m 1 e).toNat := by
      unfold rndM
      rw [hs, pow_zero, Nat.mul_one]
      have := rneDiv_exact (m * 2 ^ (e - rndE m 1 e).toNat) 1 Nat.one_pos
      rwa [Nat.mul_one] at this
    rw [hM]
    unfold val
    push_cast
    have h2 : (((e - rndE m 1 e).toNat : Nat) : Int) = e - rndE m 1 e :=
      Int.toNat_of_nonneg (by omega)
    rw [mul_assoc, ← zpow_natCast, h2, ← zpow_add₀ (by norm_num : (2 : ℚ) ≠ 0)]
    congr 2
    ring

/-- The double of an integer of magnitude below `2 ^ 53` has exactly that magnitude. -/
theorem round_nat_exact (neg : Bool) (c : Nat) (hc : c < 2 ^ 53) :
    ∃ M E, F64.round neg c 1 0 = F64.fin neg M E ∧ val M E = (c : ℚ) := by
  have hv := rndVal_exact c 0 hc (by norm_num)
  have hc0 : val c 0 = (c : ℚ) := by simp [val]
  rcases round_cases neg c 1 0 Nat.one_pos with ⟨-, h⟩ | ⟨M, E, h1, h2, -⟩
  · exfalso
    rw [hv, hc0] at h
    have h3 : (c : ℚ) < ((2 ^ 53 : Nat) : ℚ) := by exact_mod_cast hc
    have h4 : ((2 ^ 53 : Nat) : ℚ) < (2 : ℚ) ^ (1024 : Int) := by norm_num
    linarith
  · exact ⟨M, E, h1, by rw [h2, hv, hc0]⟩

/-! ## Rounding is to the nearest double -/

theorem rneDiv_near (n d : Nat) (hd : 0 < d) :
    2 * (rneDiv n d * d) ≤ 2 * n + d ∧ 2 * n ≤ 2 * (rneDiv n d * d) + d := by
  have e := Nat.div_add_mod n d
  have hr := Nat.mod_lt n hd
  have e' : n / d * d + n % d = n := by rw [Nat.mul_comm]; exact e
  have e2 : (n / d + 1) * d = n / d * d + d := by ring
  unfold rneDiv
  simp only
  split_ifs
  · constructor <;> omega
  · rw [e2]; constructor <;> omega
  · constructor <;> omega
  · rw [e2]; constructor <;> omega

/-- The rounded value is within half a unit in the last place of the number rounded. -/
theorem rndVal_near (n d : Nat) (k : Int) (hd : 0 < d) :
    |val (rndM n d k) (rndE n d k) - (n : ℚ) / (d : ℚ) * (2 : ℚ) ^ k|
      ≤ (2 : ℚ) ^ (rndE n d k) / 2 := by
  have hD := rndM_den_pos d (k - rndE n d k) hd
  have hDq : (0 : ℚ) < ((d * 2 ^ (-(k - rndE n d k)).toNat : Nat) : ℚ) := by exact_mod_cast hD
  obtain ⟨h1, h2⟩ := rneDiv_near (n * 2 ^ (k - rndE n d k).toNat)
    (d * 2 ^ (-(k - rndE n d k)).toNat) hD
  have hE := two_zpow_pos (rndE n d k)
  have harg := rndM_arg n d k hd
  have hx : (n : ℚ) / (d : ℚ) * (2 : ℚ) ^ k
      = ((n * 2 ^ (k - rndE n d k).toNat : Nat) : ℚ)
        / ((d * 2 ^ (-(k - rndE n d k)).toNat : Nat) : ℚ) * (2 : ℚ) ^ (rndE n d k) := by
    rw [harg]
    field_simp
    ring
  have q1 : (2 : ℚ) * ((rndM n d k : ℚ) * ((d * 2 ^ (-(k - rndE n d k)).toNat : Nat) : ℚ))
      ≤ 2 * ((n * 2 ^ (k - rndE n d k).toNat : Nat) : ℚ)
        + ((d * 2 ^ (-(k - rndE n d k)).toNat : Nat) : ℚ) := by
    unfold rndM
    exact_mod_cast h1
  have q2 : (2 : ℚ) * ((n * 2 ^ (k - rndE n d k).toNat : Nat) : ℚ)
      ≤ 2 * ((rndM n d k : ℚ) * ((d * 2 ^ (-(k - rndE n d k)).toNat : Nat) : ℚ))
        + ((d * 2 ^ (-(k - rndE n d k)).toNat : Nat) : ℚ) := by
    unfold rndM
    exact_mod_cast h2
  rw [hx]
  unfold val
  generalize ((n * 2 ^ (k - rndE n d k).toNat : Nat) : ℚ) = N at *
  generalize ((d * 2 ^ (-(k - rndE n d k)).toNat : Nat) : ℚ) = D at *
  generalize (rndM n d k : ℚ) = M at *
  generalize (2 : ℚ) ^ (rndE n d k) = P at *
  have hND : N / D * D = N := div_mul_cancel₀ N (ne_of_gt hDq)
  have a1 : M - N / D ≤ 1 / 2 := by
    have : (M - N / D) * D ≤ 1 / 2 * D := by
      rw [sub_mul, hND]; linarith
    exact le_of_mul_le_mul_right this hDq
  have a2 : -(1 / 2) ≤ M - N / D := by
    have : -(1 / 2) * D ≤ (M - N / D) * D := by
      rw [sub_mul, hND]; linarith
    exact le_of_mul_le_mul_right this hDq
  rw [abs_le]
  constructor <;> nlinarith

/-- Known doubles: `1.0`, `0.1`, `1.0 / 3.0`, the largest finite double divided by `0.5`
(an infinity) and the smallest subnormal halved (zero, by the tie to even). -/
theorem round_examples :
    F64.ofInt64 1 = F64.fin false 4503599627370496 (-52) ∧
    F64.div (F64.ofInt64 1) (F64.ofInt64 10) = F64.fin false 7205759403792794 (-56) ∧
    F64.div (F64.ofInt64 1) (F64.ofInt64 3) = F64.fin false 6004799503160661 (-54) ∧
    F64.div (F64.fin false (2 ^ 53 - 1) 971) (F64.fin false (2 ^ 52) (-53)) = F64.inf false ∧
    F64.div (F64.fin false 1 (-1074)) (F64.ofInt64 2) = F64.fin false 0 (-1074) ∧
    F64.toInt64 (F64.div (F64.ofInt64 (-7)) (F64.ofInt64 2)) = -3 := by
  decide

/-! ## Anchor fidelity and the offset invariant -/

theorem tsc2ns_adjustOffset_base (s : TSCNS) (h : s.base_ns < 2 ^ 64) :
    tsc2ns (adjustOffset s) s.base_tsc = s.base_ns := by
  unfold tsc2ns adjustOffset
  exact add64_sub64_cancel _ _ h (scale_lt _ _)

/-- C1 (anchor fidelity): for every declared rate `tsc_ghz > 0` and every samples read by
the sampling routine, after `init(tsc_ghz)` the anchor is the pair the sampling routine
captured and `tsc2ns(base_tsc) == base_ns` exactly. -/
theorem anchor_fidelity (s : TSCNS) (tsc_ghz : F64) (tscs nses : Nat → Nat)
    (hpos : tsc_ghz.pos = true) (h64 : Samples64 syncN tscs nses) :
    (init s tsc_ghz tscs nses).base_tsc = (syncTime syncN tscs nses).1 ∧
    (init s tsc_ghz tscs nses).base_ns = (syncTime syncN tscs nses).2 ∧
    tsc2ns (init s tsc_ghz tscs nses) (init s tsc_ghz tscs nses).base_tsc
      = (init s tsc_ghz tscs nses).base_ns := by
  have hlt := syncTime_snd_lt tscs nses h64
  have hle := pos_not_le0 tsc_ghz hpos
  simp only [init, hle, Bool.false_eq_true, if_false]
  refine ⟨rfl, rfl, ?_⟩
  exact tsc2ns_adjustOffset_base _ hlt

/-- C1 at `init(2.0)` with samples that give the anchor `(1000, 5000000000)`. -/
theorem anchor_fidelity_witness :
    (init TSCNS.fresh (F64.ofInt64 2) (constSamples 1000) (constSamples 5000000000)).base_tsc
      = 1000 ∧
    tsc2ns (init TSCNS.fresh (F64.ofInt64 2) (constSamples 1000) (constSamples 5000000000))
      1000 = 5000000000 := by
  have h := anchor_fidelity TSCNS.fresh (F64.ofInt64 2) (constSamples 1000)
    (constSamples 5000000000) (by decide) (by decide)
  have h1 : (init TSCNS.fresh (F64.ofInt64 2) (constSamples 1000)
      (constSamples 5000000000)).base_tsc = 1000 := by decide
  have h2 : (init TSCNS.fresh (F64.ofInt64 2) (constSamples 1000)
      (constSamples 5000000000)).base_ns = 5000000000 := by decide
  rw [h1, h2] at h
  exact ⟨h1, h.2.2⟩

theorem offsetInv_adjustOffset (s : TSCNS) : OffsetInv (adjustOffset s) := rfl

/-- C3 fails as stated at `init(0.0)`: on a fresh instance whose `syncTime` captures the
anchor `(100, 1000)`, `ns_offset` stays `0` while
`base_ns - trunc(base_tsc * tsc_ghz_inv) = 1000 - 100 = 900`. -/
theorem offset_invariant_fails_after_init_zero :
    (init TSCNS.fresh F64.zero (constSamples 100) (constSamples 1000)).base_tsc = 100 ∧
    (init TSCNS.fresh F64.zero (constSamples 100) (constSamples 1000)).base_ns = 1000 ∧
    (init TSCNS.fresh F64.zero (constSamples 100) (constSamples 1000)).ns_offset = 0 ∧
    sub64 1000 (scale 100 F64.one) = 900 ∧
    ¬ OffsetInv (init TSCNS.fresh F64.zero (constSamples 100) (constSamples 1000)) := by
  decide

/-- C3 as amended: the invariant `ns_offset = base_ns - trunc(base_tsc * tsc_ghz_inv)`
holds in the freshly constructed state, after `init(declared_rate)` whenever the test
`declared_rate <= 0.0` is false, and after every `calibrate()`, whatever samples were
captured; `init(declared_rate)` with `declared_rate <= 0.0` writes the anchor and leaves
`ns_offset` and `tsc_ghz_inv` as they were. -/
theorem offset_invariant :
    OffsetInv TSCNS.fresh ∧
    (∀ (s : TSCNS) (r : F64) (tscs nses : Nat → Nat), r.le0 = false →
      OffsetInv (init s r tscs nses)) ∧
    (∀ (s : TSCNS) (tscs nses : Nat → Nat), OffsetInv (calibrate s tscs nses).2) ∧
    (∀ (s : TSCNS) (r : F64) (tscs nses : Nat → Nat), r.le0 = true →
      (init s r tscs nses).ns_offset = s.ns_offset ∧
      (init s r tscs nses).tsc_ghz_inv = s.tsc_ghz_inv ∧
      (init s r tscs nses).base_tsc = (syncTime syncN tscs nses).1 ∧
      (init s r tscs nses).base_ns = (syncTime syncN tscs nses).2) := by
  refine ⟨by decide, ?_, ?_, ?_⟩
  · intro s r tscs nses h
    simp only [init, h, Bool.false_eq_true, if_false]
    exact offsetInv_adjustOffset _
  · intro s tscs nses
    exact offsetInv_adjustOffset _
  · intro s r tscs nses h
    unfold init
    rw [if_pos h]
    exact ⟨rfl, rfl, rfl, rfl⟩

/-- C3 as amended, at `init(2.0)` and at a `calibrate()` after it. -/
theorem offset_invariant_witness :
    (F64.ofInt64 2).le0 = false ∧
    OffsetInv (init TSCNS.fresh (F64.ofInt64 2) (constSamples 100) (constSamples 1000)) ∧
    OffsetInv (calibrate (init TSCNS.fresh (F64.ofInt64 2) (constSamples 100)
      (constSamples 1000)) (constSamples 300) (constSamples 1100)).2 :=
  ⟨by decide,
   offset_invariant.2.1 TSCNS.fresh (F64.ofInt64 2) (constSamples 100) (constSamples 1000)
     (by decide),
   offset_invariant.2.2.1 _ (constSamples 300) (constSamples 1100)⟩

/-! ## Sampling window selection -/

/-- C4 (sampling window selection): for non-decreasing 64-bit cycle samples `c[0..N]` the
index `b` selected by `syncTime` is one of `1..N`, its gap is minimal,
`c[b] - c[b-1] ≤ c[i] - c[i-1]` for every `i` in `1..N`, and the returned time is `t[b]`. -/
theorem sampling_window_selection (N : Nat) (tscs nses : Nat → Nat) (hN : 1 ≤ N)
    (hmono : ∀ i, i < N → tscs i ≤ tscs (i + 1))
    (h64 : ∀ i, i ≤ N → tscs i < 2 ^ 64) :
    1 ≤ syncBest N tscs ∧ syncBest N tscs ≤ N ∧
    (∀ i, 1 ≤ i → i ≤ N →
      tscs (syncBest N tscs) - tscs (syncBest N tscs - 1) ≤ tscs i - tscs (i - 1)) ∧
    (syncTime N tscs nses).2 = nses (syncBest N tscs) := by
  have hgap : ∀ i, 1 ≤ i → i ≤ N → gap tscs i = tscs i - tscs (i - 1) := by
    intro i h1 h2
    unfold gap
    apply sub64_of_le _ _ (h64 i h2)
    have := hmono (i - 1) (by omega)
    rwa [Nat.sub_add_cancel h1] at this
  obtain ⟨hb1, hbN⟩ := syncBest_range N tscs hN
  refine ⟨hb1, hbN, ?_, rfl⟩
  intro i h1 h2
  rw [← hgap i h1 h2, ← hgap _ hb1 hbN]
  exact syncBest_min N tscs i h1 h2

/-- C4 at the samples of the specification: `N = 3`, cycles `[100, 150, 152, 300]`, times
`[1000, 1002, 2000]` at the indices `1..3`: index `2` is selected, the result is
`(151, 1002)`. -/
theorem sampling_window_selection_witness :
    syncBest 3 (listSamples [100, 150, 152, 300]) = 2 ∧
    syncTime 3 (listSamples [100, 150, 152, 300]) (listSamples [0, 1000, 1002, 2000])
      = (151, 1002) ∧
    (∀ i, 1 ≤ i → i ≤ 3 →
      listSamples [100, 150, 152, 300] (syncBest 3 (listSamples [100, 150, 152, 300]))
        - listSamples [100, 150, 152, 300] (syncBest 3 (listSamples [100, 150, 152, 300]) - 1)
      ≤ listSamples [100, 150, 152, 300] i - listSamples [100, 150, 152, 300] (i - 1)) :=
  ⟨by decide, by decide,
   (sampling_window_selection 3 (listSamples [100, 150, 152, 300])
      (listSamples [0, 1000, 1002, 2000]) (by decide) (by decide) (by decide)).2.2.1⟩

/-! ## Calibration -/

theorem calibrate_base (s : TSCNS) (tscs nses : Nat → Nat) :
    (calibrate s tscs nses).2.base_tsc = s.base_tsc ∧
    (calibrate s tscs nses).2.base_ns = s.base_ns := ⟨rfl, rfl⟩

theorem tsc2ns_calibrate_base (s : TSCNS) (tscs nses : Nat → Nat) (h : s.base_ns < 2 ^ 64) :
    tsc2ns (calibrate s tscs nses).2 s.base_tsc = s.base_ns :=
  tsc2ns_adjustOffset_base
    { s with
      tsc_ghz_inv := F64.div
        (F64.ofInt64 (toI64 (sub64 (syncTime syncN tscs nses).2 s.base_ns)))
        (F64.ofInt64 (toI64 (sub64 (syncTime syncN tscs nses).1 s.base_tsc))) } h

theorem calibrateAll_base (s : TSCNS) (l : List ((Nat → Nat) × (Nat → Nat))) :
    (calibrateAll s l).base_tsc = s.base_tsc ∧ (calibrateAll s l).base_ns = s.base_ns := by
  induction l generalizing s with
  | nil => exact ⟨rfl, rfl⟩
  | cons p rest ih => exact ih (calibrate s p.1 p.2).2

theorem tsc2ns_calibrateAll_base (s : TSCNS) (l : List ((Nat → Nat) × (Nat → Nat)))
    (hl : l ≠ []) (h : s.base_ns < 2 ^ 64) :
    tsc2ns (calibrateAll s l) s.base_tsc = s.base_ns := by
  induction l generalizing s with
  | nil => exact absurd rfl hl
  | cons p rest ih =>
    rcases rest with _ | ⟨q, rest'⟩
    · exact tsc2ns_calibrate_base s p.1 p.2 h
    · exact ih (calibrate s p.1 p.2).2 (List.cons_ne_nil _ _) h

/-- C5 (calibration re-anchoring): after any `calibrate()` call made after `init` (the last
of one or more calls, whatever samples each of them read), `base_tsc` and `base_ns` are
those captured by `init`, and `tsc2ns(base_tsc)` equals that `base_ns`. -/
theorem calibrate_reanchoring (s : TSCNS) (r : F64) (tscs nses : Nat → Nat)
    (l : List ((Nat → Nat) × (Nat → Nat))) (hl : l ≠ [])
    (h64 : Samples64 syncN tscs nses) :
    (calibrateAll (init s r tscs nses) l).base_tsc = (syncTime syncN tscs nses).1 ∧
    (calibrateAll (init s r tscs nses) l).base_ns = (syncTime syncN tscs nses).2 ∧
    tsc2ns (calibrateAll (init s r tscs nses) l) (syncTime syncN tscs nses).1
      = (syncTime syncN tscs nses).2 := by
  have hlt := syncTime_snd_lt tscs nses h64
  have hb : (init s r tscs nses).base_tsc = (syncTime syncN tscs nses).1 ∧
      (init s r tscs nses).base_ns = (syncTime syncN tscs nses).2 := by
    unfold init
    split_ifs <;> exact ⟨rfl, rfl⟩
  obtain ⟨c1, c2⟩ := calibrateAll_base (init s r tscs nses) l
  refine ⟨c1.trans hb.1, c2.trans hb.2, ?_⟩
  have h := tsc2ns_calibrateAll_base (init s r tscs nses) l hl (by rw [hb.2]; exact hlt)
  rw [hb.1, hb.2] at h
  exact h

/-- C5 at the samples of the specification: anchor `(1000, 5000000000)`, second sample
`(4000000, 5001000000)`. -/
theorem calibrate_reanchoring_witness :
    syncTime syncN (constSamples 1000) (constSamples 5000000000) = (1000, 5000000000) ∧
    syncTime syncN (constSamples 4000000) (constSamples 5001000000)
      = (4000000, 5001000000) ∧
    calibrateAll (init TSCNS.fresh F64.zero (constSamples 1000) (constSamples 5000000000))
        [(constSamples 4000000, constSamples 5001000000)]
      = (calibrate (init TSCNS.fresh F64.zero (constSamples 1000) (constSamples 5000000000))
          (constSamples 4000000) (constSamples 5001000000)).2 ∧
    tsc2ns (calibrate (init TSCNS.fresh F64.zero (constSamples 1000)
        (constSamples 5000000000)) (constSamples 4000000) (constSamples 5001000000)).2
      1000 = 5000000000 :=
  ⟨by decide, by decide, rfl,
   (calibrate_reanchoring TSCNS.fresh F64.zero (constSamples 1000) (constSamples 5000000000)
      [(constSamples 4000000, constSamples 5001000000)] (by simp) (by decide)).2.2⟩

/-- C8 (repeated calibration uses the original anchor): `calibrate()` does not modify
`base_tsc` or `base_ns`, and a `calibrate()` that captures `s1` followed by one that
captures `s2` yields the same state and the same returned rate as a single `calibrate()`
that captures `s2`. -/
theorem calibrate_twice (s : TSCNS) (tscs1 nses1 tscs2 nses2 : Nat → Nat) :
    (calibrate s tscs1 nses1).2.base_tsc = s.base_tsc ∧
    (calibrate s tscs1 nses1).2.base_ns = s.base_ns ∧
    calibrate (calibrate s tscs1 nses1).2 tscs2 nses2 = calibrate s tscs2 nses2 :=
  ⟨rfl, rfl, rfl⟩

/-- C9 (`init(0.0)` leaves `tsc_ghz_inv` untouched): `init(0.0)` writes `base_tsc` and
`base_ns` only, so on a freshly constructed instance `tsc_ghz_inv` is still `1.0`. -/
theorem init_zero_frame (s : TSCNS) (tscs nses : Nat → Nat) :
    (init s F64.zero tscs nses).tsc_ghz_inv = s.tsc_ghz_inv ∧
    (init s F64.zero tscs nses).ns_offset = s.ns_offset ∧
    (init s F64.zero tscs nses).base_tsc = (syncTime syncN tscs nses).1 ∧
    (init s F64.zero tscs nses).base_ns = (syncTime syncN tscs nses).2 ∧
    (init TSCNS.fresh F64.zero tscs nses).tsc_ghz_inv = F64.one ∧
    F64.one = F64.ofInt64 1 :=
  ⟨rfl, rfl, rfl, rfl, rfl, by decide⟩

/-! ## Order preservation -/

/-- C2 fails as stated, in two ways.  A cycle count of `2 ^ 63` or more is read as a
negative `int64_t`: after `init(8.0)` with the anchor `(0, 1700000000000000000)`,
`tsc2ns(0) = 1700000000000000000` but `tsc2ns(2 ^ 63) = 547078495393153024`.  The 64-bit
sum can wrap: after `init(1.0)` with the anchor `(100, 50)`, `tsc2ns(0) = 2 ^ 64 - 50` but
`tsc2ns(100) = 50`. -/
theorem order_preservation_fails :
    (init TSCNS.fresh (F64.ofInt64 8) (constSamples 0)
        (constSamples 1700000000000000000)).tsc_ghz_inv.pos = true ∧
    (0 : Nat) ≤ 2 ^ 63 ∧
    tsc2ns (init TSCNS.fresh (F64.ofInt64 8) (constSamples 0)
        (constSamples 1700000000000000000)) 0 = 1700000000000000000 ∧
    tsc2ns (init TSCNS.fresh (F64.ofInt64 8) (constSamples 0)
        (constSamples 1700000000000000000)) (2 ^ 63) = 547078495393153024 ∧
    (init TSCNS.fresh F64.one (constSamples 100) (constSamples 50)).tsc_ghz_inv.pos = true ∧
    tsc2ns (init TSCNS.fresh F64.one (constSamples 100) (constSamples 50)) 0 = 2 ^ 64 - 50 ∧
    tsc2ns (init TSCNS.fresh F64.one (constSamples 100) (constSamples 50)) 100 = 50 := by
  decide

/-- C2 as amended: for every calibration state with `tsc_ghz_inv > 0` and all cycle counts
`c1 ≤ c2 < 2 ^ 63` for which the sum `ns_offset + (int64_t)(c2 * tsc_ghz_inv)` does not
wrap around `2 ^ 64`, `tsc2ns(c1) ≤ tsc2ns(c2)`. -/
theorem order_preservation (s : TSCNS) (c1 c2 : Nat) (hpos : s.tsc_ghz_inv.pos = true)
    (h12 : c1 ≤ c2) (h2 : c2 < 2 ^ 63)
    (hw : s.ns_offset + scale c2 s.tsc_ghz_inv < 2 ^ 64) :
    tsc2ns s c1 ≤ tsc2ns s c2 := by
  have hm := scale_mono c1 c2 s.tsc_ghz_inv h12 h2 hpos
  unfold tsc2ns add64
  rw [Nat.mod_eq_of_lt hw, Nat.mod_eq_of_lt (by omega)]
  omega

/-- C2 as amended, after `init(3.0)` with the anchor `(1000, 5000000000)`, at the cycle
counts `2000 ≤ 3000`: the results are `5000000333 ≤ 5000000667`. -/
theorem order_preservation_witness :
    tsc2ns (init TSCNS.fresh (F64.ofInt64 3) (constSamples 1000) (constSamples 5000000000))
      2000 = 5000000333 ∧
    tsc2ns (init TSCNS.fresh (F64.ofInt64 3) (constSamples 1000) (constSamples 5000000000))
      3000 = 5000000667 ∧
    tsc2ns (init TSCNS.fresh (F64.ofInt64 3) (constSamples 1000) (constSamples 5000000000)) 2000
      ≤ tsc2ns (init TSCNS.fresh (F64.ofInt64 3) (constSamples 1000) (constSamples 5000000000))
        3000 :=
  ⟨by decide, by decide,
   order_preservation
     (init TSCNS.fresh (F64.ofInt64 3) (constSamples 1000) (constSamples 5000000000))
     2000 3000 (by decide) (by decide) (by decide) (by decide)⟩

/-! ## The midpoint -/

/-- C10 fails as stated when the 64-bit sum `tscs[best] + tscs[best - 1]` wraps: with every
cycle sample equal to `2 ^ 63` the window is `[2 ^ 63, 2 ^ 63]` and the returned cycle value
is `0`. -/
theorem midpoint_fails :
    constSamples (2 ^ 63) (syncBest syncN (constSamples (2 ^ 63)) - 1)
      ≤ constSamples (2 ^ 63) (syncBest syncN (constSamples (2 ^ 63))) ∧
    (syncTime syncN (constSamples (2 ^ 63)) (constSamples 0)).1 = 0 ∧
    (constSamples (2 ^ 63) (syncBest syncN (constSamples (2 ^ 63)))
      + constSamples (2 ^ 63) (syncBest syncN (constSamples (2 ^ 63)) - 1)) / 2 = 2 ^ 63 ∧
    ¬ (constSamples (2 ^ 63) (syncBest syncN (constSamples (2 ^ 63)) - 1)
      ≤ (syncTime syncN (constSamples (2 ^ 63)) (constSamples 0)).1) := by
  decide

/-- C10 as amended: with `b` the index selected by the sampling routine, `c[b-1] ≤ c[b]` and
`c[b] + c[b-1] < 2 ^ 64` (as when both samples are below `2 ^ 63`), the returned cycle value
is the integer midpoint `(c[b] + c[b-1]) / 2` and lies in `[c[b-1], c[b]]`. -/
theorem midpoint (N : Nat) (tscs nses : Nat → Nat)
    (hle : tscs (syncBest N tscs - 1) ≤ tscs (syncBest N tscs))
    (hsum : tscs (syncBest N tscs) + tscs (syncBest N tscs - 1) < 2 ^ 64) :
    (syncTime N tscs nses).1 = (tscs (syncBest N tscs) + tscs (syncBest N tscs - 1)) / 2 ∧
    tscs (syncBest N tscs - 1) ≤ (syncTime N tscs nses).1 ∧
    (syncTime N tscs nses).1 ≤ tscs (syncBest N tscs) := by
  have h : (syncTime N tscs nses).1
      = (tscs (syncBest N tscs) + tscs (syncBest N tscs - 1)) / 2 := by
    unfold syncTime add64
    simp only
    rw [Nat.mod_eq_of_lt hsum]
  rw [h]
  refine ⟨rfl, ?_, ?_⟩ <;> omega

/-- C10 as amended, at the samples of the specification: the window `[150, 152]` gives the
cycle value `151`. -/
theorem midpoint_witness :
    (syncTime 3 (listSamples [100, 150, 152, 300]) (listSamples [0, 1000, 1002, 2000])).1
      = 151 ∧
    listSamples [100, 150, 152, 300] (syncBest 3 (listSamples [100, 150, 152, 300]) - 1)
      ≤ (syncTime 3 (listSamples [100, 150, 152, 300])
          (listSamples [0, 1000, 1002, 2000])).1 ∧
    (syncTime 3 (listSamples [100, 150, 152, 300]) (listSamples [0, 1000, 1002, 2000])).1
      ≤ listSamples [100, 150, 152, 300] (syncBest 3 (listSamples [100, 150, 152, 300])) :=
  ⟨by decide,
   (midpoint 3 (listSamples [100, 150, 152, 300]) (listSamples [0, 1000, 1002, 2000])
      (by decide) (by decide)).2⟩

/-! ## Conversion after `init` -/

theorem syncTime_fst_lt (N : Nat) (tscs nses : Nat → Nat) : (syncTime N tscs nses).1 < 2 ^ 63 := by
  unfold syncTime add64
  simp only
  have : (tscs (syncBest N tscs) + tscs (syncBest N tscs - 1)) % 2 ^ 64 < 2 ^ 64 :=
    Nat.mod_lt _ (by norm_num)
  omega

/-- On a cycle count below `2 ^ 63` whose double product with `inv` is in range, the term
`(int64_t)((int64_t)tsc * tsc_ghz_inv)` is the integer part of that product. -/
theorem scale_eq_natTrunc (c : Nat) (inv : F64) (hc : c < 2 ^ 63)
    (h : (F64.mul (F64.ofNat c) inv).inRange = true) :
    scale c inv = F64.natTrunc (F64.mul (F64.ofNat c) inv) := by
  unfold scale
  rw [toI64_of_lt c hc, ofInt64_natCast]
  unfold F64.ofNat at h ⊢
  generalize F64.mul (F64.round false c 1 0) inv = p at h ⊢
  cases p with
  | nan => simp [F64.inRange] at h
  | inf s => simp [F64.inRange] at h
  | fin s m e =>
    cases s with
    | true => simp [F64.inRange] at h
    | false =>
      have h' : truncNat m e < 2 ^ 63 := by simpa [F64.inRange] using h
      rw [toU64_toInt64_fin, min_eq_left (le_of_lt h')]
      rfl

/-- C7 fails as stated, in two ways.  After `init(2.0)` with the pair `(0, 1000)`
(`offset = 1000`, `rate_inv = 0.5`) the cycle count `2 ^ 63` is read as `-2 ^ 63`:
`tsc2ns(2 ^ 63) = 2 ^ 64 - 2 ^ 62 + 1000`, while `offset + trunc(c * rate_inv)` is
`1000 + 2 ^ 62`.  After `init(2 ^ -62)` with the same pair (`rate_inv = 2 ^ 62`) the product
`4 * rate_inv = 2 ^ 64` is out of the range of `int64_t`: `tsc2ns(4) = 1000 + 2 ^ 63`, while
`offset + trunc(c * rate_inv)` is `1000 + 2 ^ 64`. -/
theorem conversion_after_init_fails :
    (init TSCNS.fresh (F64.ofInt64 2) (constSamples 0) (constSamples 1000)).ns_offset = 1000 ∧
    (init TSCNS.fresh (F64.ofInt64 2) (constSamples 0) (constSamples 1000)).tsc_ghz_inv
      = F64.fin false (2 ^ 52) (-53) ∧
    tsc2ns (init TSCNS.fresh (F64.ofInt64 2) (constSamples 0) (constSamples 1000)) (2 ^ 63)
      = 2 ^ 64 - 2 ^ 62 + 1000 ∧
    affineTrunc 1000 (2 ^ 63) (F64.fin false (2 ^ 52) (-53)) = 1000 + 2 ^ 62 ∧
    (F64.fin false (2 ^ 52) (-114)).pos = true ∧
    (init TSCNS.fresh (F64.fin false (2 ^ 52) (-114)) (constSamples 0)
      (constSamples 1000)).ns_offset = 1000 ∧
    (init TSCNS.fresh (F64.fin false (2 ^ 52) (-114)) (constSamples 0)
      (constSamples 1000)).tsc_ghz_inv = F64.fin false (2 ^ 52) 10 ∧
    tsc2ns (init TSCNS.fresh (F64.fin false (2 ^ 52) (-114)) (constSamples 0)
      (constSamples 1000)) 4 = 1000 + 2 ^ 63 ∧
    affineTrunc 1000 4 (F64.fin false (2 ^ 52) 10) = 1000 + 2 ^ 64 := by
  decide

/-- C7 as amended: for every declared rate `r > 0`, every captured reference pair `(b, n)`
and every cycle count `c < 2 ^ 63`, when the double products `b * rate_inv` and
`c * rate_inv` are below `2 ^ 63`: after `init(r)` the state has `rate_inv = 1.0 / r` and
`offset = n - trunc(b * rate_inv)` (64-bit difference), and
`tsc2ns(c) = offset + trunc(c * rate_inv)` reduced modulo `2 ^ 64`, the products being
products of doubles. -/
theorem conversion_after_init (s : TSCNS) (r : F64) (tscs nses : Nat → Nat) (c : Nat)
    (hr : r.pos = true) (hc : c < 2 ^ 63)
    (hb : (F64.mul (F64.ofNat (syncTime syncN tscs nses).1)
      (F64.div F64.one r)).inRange = true)
    (hp : (F64.mul (F64.ofNat c) (F64.div F64.one r)).inRange = true) :
    (init s r tscs nses).tsc_ghz_inv = F64.div F64.one r ∧
    (init s r tscs nses).ns_offset = sub64 (syncTime syncN tscs nses).2
      (F64.natTrunc (F64.mul (F64.ofNat (syncTime syncN tscs nses).1) (F64.div F64.one r))) ∧
    tsc2ns (init s r tscs nses) c
      = affineTrunc (init s r tscs nses).ns_offset c (F64.div F64.one r) % 2 ^ 64 := by
  have hle := pos_not_le0 r hr
  have e1 := scale_eq_natTrunc _ _ (syncTime_fst_lt syncN tscs nses) hb
  have e2 := scale_eq_natTrunc c _ hc hp
  have hinit : init s r tscs nses = adjustOffset
      { tsc_ghz_inv := F64.div F64.one r, ns_offset := s.ns_offset,
        base_tsc := (syncTime syncN tscs nses).1, base_ns := (syncTime syncN tscs nses).2 } := by
    unfold init
    rw [hle]
    rfl
  rw [hinit]
  refine ⟨rfl, ?_, ?_⟩
  · show sub64 _ (scale _ _) = _
    rw [e1]
  · show add64 _ (scale c (F64.div F64.one r)) = _
    rw [e2]
    rfl

/-- C7 as amended, at the example of the specification: `init(2.0)` with the pair
`(0, 1000)` gives `offset = 1000`, `rate_inv = 0.5` and `tsc2ns(100) = 1050`. -/
theorem conversion_after_init_witness :
    syncTime syncN (constSamples 0) (constSamples 1000) = (0, 1000) ∧
    F64.div F64.one (F64.ofInt64 2) = F64.fin false (2 ^ 52) (-53) ∧
    (init TSCNS.fresh (F64.ofInt64 2) (constSamples 0) (constSamples 1000)).ns_offset = 1000 ∧
    affineTrunc 1000 100 (F64.div F64.one (F64.ofInt64 2)) % 2 ^ 64 = 1050 ∧
    tsc2ns (init TSCNS.fresh (F64.ofInt64 2) (constSamples 0) (constSamples 1000)) 100
      = affineTrunc (init TSCNS.fresh (F64.ofInt64 2) (constSamples 0)
          (constSamples 1000)).ns_offset 100 (F64.div F64.one (F64.ofInt64 2)) % 2 ^ 64 :=
  ⟨by decide, by decide, by decide, by decide,
   (conversion_after_init TSCNS.fresh (F64.ofInt64 2) (constSamples 0) (constSamples 1000) 100
      (by decide) (by decide) (by decide) (by decide)).2.2⟩

/-! ## The calibration formula -/

theorem delta64_eq (a b : Nat)
    (h1 : -2 ^ 63 ≤ (a : Int) - (b : Int)) (h2 : (a : Int) - (b : Int) < 2 ^ 63) :
    delta64 a b = (a : Int) - (b : Int) := by
  unfold delta64 toI64 sub64
  split_ifs <;> omega

/-- The quotient of the doubles of two integers of magnitude below `2 ^ 53` is the
rounding of their exact quotient. -/
theorem div_ofInt64_exact (a b : Int) (ha : a.natAbs < 2 ^ 53) (hb : b.natAbs < 2 ^ 53)
    (hb0 : b ≠ 0) :
    F64.div (F64.ofInt64 a) (F64.ofInt64 b)
      = F64.round (xor (decide (a < 0)) (decide (b < 0))) a.natAbs b.natAbs 0 := by
  unfold F64.ofInt64
  obtain ⟨M, E, h1, v1⟩ := round_nat_exact (decide (a < 0)) a.natAbs ha
  obtain ⟨M', E', h2, v2⟩ := round_nat_exact (decide (b < 0)) b.natAbs hb
  rw [h1, h2]
  have hbpos : 0 < b.natAbs := Int.natAbs_pos.mpr hb0
  have hbq : (0 : ℚ) < (b.natAbs : ℚ) := by exact_mod_cast hbpos
  have hM' : M' ≠ 0 := by
    intro h0
    rw [h0] at v2
    simp [val] at v2
    linarith
  have hd : F64.div (F64.fin (decide (a < 0)) M E) (F64.fin (decide (b < 0)) M' E')
      = F64.round (xor (decide (a < 0)) (decide (b < 0))) M M' (E - E') := by
    show (if M' = 0 then _ else _) = _
    rw [if_neg hM']
  rw [hd]
  apply round_congr _ _ _ _ _ _ _ (Nat.pos_of_ne_zero hM') hbpos
  have hM'q : (M' : ℚ) ≠ 0 := by exact_mod_cast hM'
  unfold val at v1 v2
  rw [← v1, ← v2, zpow_sub₀ (by norm_num : (2 : ℚ) ≠ 0), zpow_zero, mul_one]
  have := two_zpow_pos E'
  field_simp

/-- C6 fails as stated at its own example: with the anchor `(1000, 5000000000)` and the
second sample `(4000000, 5001000000)` the returned rate `1.0 / rate_inv` is the double
`9004947454927306 * 2 ^ -51`, while the quotient
`(new_tsc - base_tsc) / (new_ns - base_ns) = 3999000 / 1000000`, in `double` as well as
rounded from the exact value `3.999`, is `9004947454927307 * 2 ^ -51`. -/
theorem calibration_formula_fails :
    (calibrate (init TSCNS.fresh F64.zero (constSamples 1000) (constSamples 5000000000))
      (constSamples 4000000) (constSamples 5001000000)).1
      = F64.fin false 9004947454927306 (-51) ∧
    F64.div (F64.ofInt64 (4000000 - 1000)) (F64.ofInt64 (5001000000 - 5000000000))
      = F64.fin false 9004947454927307 (-51) ∧
    F64.round false 3999 1000 0 = F64.fin false 9004947454927307 (-51) ∧
    (calibrate (init TSCNS.fresh F64.zero (constSamples 1000) (constSamples 5000000000))
      (constSamples 4000000) (constSamples 5001000000)).1
      ≠ F64.div (F64.ofInt64 (4000000 - 1000)) (F64.ofInt64 (5001000000 - 5000000000)) := by
  decide

/-- C6 as amended: for every anchor and every second sample, `calibrate()` stores as
`rate_inv` the quotient, in `double`, of the signed 64-bit differences
`new_ns - base_ns` and `new_tsc - base_tsc`, and returns the quotient `1.0 / rate_inv` in
`double`.  The signed differences are the exact ones when those lie in the range of
`int64_t`, and when both are below `2 ^ 53` in magnitude and `new_tsc ≠ base_tsc` the stored
`rate_inv` is the double nearest to the exact quotient
`(new_ns - base_ns) / (new_tsc - base_tsc)`. -/
theorem calibration_formula (s : TSCNS) (tscs nses : Nat → Nat) :
    (calibrate s tscs nses).2.tsc_ghz_inv
      = F64.div (F64.ofInt64 (delta64 (syncTime syncN tscs nses).2 s.base_ns))
          (F64.ofInt64 (delta64 (syncTime syncN tscs nses).1 s.base_tsc)) ∧
    (calibrate s tscs nses).1 = F64.div F64.one (calibrate s tscs nses).2.tsc_ghz_inv ∧
    (∀ a b : Nat, -2 ^ 63 ≤ (a : Int) - (b : Int) →
      (a : Int) - (b : Int) < 2 ^ 63 → delta64 a b = (a : Int) - (b : Int)) ∧
    ((delta64 (syncTime syncN tscs nses).2 s.base_ns).natAbs < 2 ^ 53 →
      (delta64 (syncTime syncN tscs nses).1 s.base_tsc).natAbs < 2 ^ 53 →
      delta64 (syncTime syncN tscs nses).1 s.base_tsc ≠ 0 →
      (calibrate s tscs nses).2.tsc_ghz_inv
        = F64.round (xor (decide (delta64 (syncTime syncN tscs nses).2 s.base_ns < 0))
            (decide (delta64 (syncTime syncN tscs nses).1 s.base_tsc < 0)))
          (delta64 (syncTime syncN tscs nses).2 s.base_ns).natAbs
          (delta64 (syncTime syncN tscs nses).1 s.base_tsc).natAbs 0) :=
  ⟨rfl, rfl, delta64_eq, fun ha hb hb0 => div_ofInt64_exact _ _ ha hb hb0⟩

/-- C6 as amended, at the example of the specification: the differences are `1000000` and
`3999000`, `rate_inv` is the double nearest to `1000000 / 3999000`, which is
`4504725808822702 * 2 ^ -54`, and the returned rate is `9004947454927306 * 2 ^ -51`. -/
theorem calibration_formula_witness :
    delta64 5001000000 5000000000 = 1000000 ∧ delta64 4000000 1000 = 3999000 ∧
    (calibrate (init TSCNS.fresh F64.zero (constSamples 1000) (constSamples 5000000000))
      (constSamples 4000000) (constSamples 5001000000)).2.tsc_ghz_inv
      = F64.round false 1000000 3999000 0 ∧
    F64.round false 1000000 3999000 0 = F64.fin false 4504725808822702 (-54) ∧
    (calibrate (init TSCNS.fresh F64.zero (constSamples 1000) (constSamples 5000000000))
      (constSamples 4000000) (constSamples 5001000000)).1
      = F64.fin false 9004947454927306 (-51) :=
  ⟨by decide, by decide,
   (calibration_formula (init TSCNS.fresh F64.zero (constSamples 1000)
      (constSamples 5000000000)) (constSamples 4000000) (constSamples 5001000000)).2.2.2
      (by decide) (by decide) (by decide),
   by decide, by decide⟩

/-! ## The selected window: range, ties and the slots read -/

theorem bestLoop_later (tscs : Nat → Nat) (N k best : Nat) (hk : k < best) (hbN : best ≤ N)
    (h1 : ∀ i, k < i → i ≤ N → gap tscs best ≤ gap tscs i)
    (h2 : ∀ i, best < i → i ≤ N → gap tscs best < gap tscs i) :
    ∀ i, bestLoop tscs k best < i → i ≤ N → gap tscs (bestLoop tscs k best) < gap tscs i := by
  induction k generalizing best with
  | zero => exact h2
  | succ k ih =>
    simp only [bestLoop]
    split_ifs with hlt
    · apply ih (k + 1) (by omega) (by omega)
      · intro i hi hiN
        rcases Nat.lt_or_ge (k + 1) i with h | h
        · exact le_of_lt (lt_of_lt_of_le hlt (h1 i h hiN))
        · have : i = k + 1 := by omega
          rw [this]
      · intro i hi hiN
        exact lt_of_lt_of_le hlt (h1 i hi hiN)
    · apply ih best (by omega) hbN
      · intro i hi hiN
        rcases Nat.lt_or_ge (k + 1) i with h | h
        · exact h1 i h hiN
        · have : i = k + 1 := by omega
          rw [this]
          omega
      · exact h2

/-- Every window after the selected one has a strictly larger gap. -/
theorem syncBest_later (N : Nat) (tscs : Nat → Nat) (hN : 1 ≤ N) (i : Nat)
    (hi : syncBest N tscs < i) (hiN : i ≤ N) :
    gap tscs (syncBest N tscs) < gap tscs i := by
  unfold syncBest at hi ⊢
  refine bestLoop_later tscs N (N - 1) N (by omega) le_rfl ?_ ?_ i hi hiN
  · intro j hj hjN
    have : j = N := by omega
    rw [this]
  · intro j hj hjN
    omega

theorem gap_congr (tscs tscs' : Nat → Nat) (N : Nat) (h : ∀ i, i ≤ N → tscs i = tscs' i)
    (i : Nat) (hi : i ≤ N) : gap tscs i = gap tscs' i := by
  unfold gap
  rw [h i hi, h (i - 1) (by omega)]

theorem bestLoop_congr (tscs tscs' : Nat → Nat) (N : Nat)
    (h : ∀ i, i ≤ N → tscs i = tscs' i) (k best : Nat) (hk : k ≤ N) (hb : best ≤ N) :
    bestLoop tscs k best = bestLoop tscs' k best := by
  induction k generalizing best with
  | zero => rfl
  | succ k ih =>
    simp only [bestLoop]
    rw [gap_congr tscs tscs' N h (k + 1) hk, gap_congr tscs tscs' N h best hb]
    split_ifs
    · exact ih (k + 1) (by omega) hk
    · exact ih best (by omega) hb

/-- The result of `syncTime` depends on the slots `tscs[0..N]` and `nses[1..N]` only. -/
theorem syncTime_congr (N : Nat) (tscs nses tscs' nses' : Nat → Nat) (hN : 1 ≤ N)
    (ht : ∀ i, i ≤ N → tscs i = tscs' i)
    (hn : ∀ i, 1 ≤ i → i ≤ N → nses i = nses' i) :
    syncTime N tscs nses = syncTime N tscs' nses' := by
  have hb : syncBest N tscs = syncBest N tscs' :=
    bestLoop_congr tscs tscs' N ht (N - 1) N (by omega) le_rfl
  obtain ⟨h1, h2⟩ := syncBest_range N tscs' hN
  unfold syncTime
  simp only
  rw [hb, ht _ h2, ht (syncBest N tscs' - 1) (by omega), hn _ h1 h2]

/-- C13 fails as stated: the last pair `(N - 1, N)` is a candidate and can be the selected
window.  With `N = 3` and the cycle samples `[100, 150, 200, 201]` (gaps `50, 50, 1`) the
selected index is `3`, which is not in `[1, N - 1]`, and its gap `1` is smaller than the
smallest gap `50` among the pairs `1..N-1`; with the `N = 10` of the source and equal
samples the selected index is `10`. -/
theorem window_index_range_fails :
    syncBest 3 (listSamples [100, 150, 200, 201]) = 3 ∧
    ¬ (syncBest 3 (listSamples [100, 150, 200, 201]) ≤ 3 - 1) ∧
    gap (listSamples [100, 150, 200, 201]) 3 = 1 ∧
    gap (listSamples [100, 150, 200, 201]) 1 = 50 ∧
    gap (listSamples [100, 150, 200, 201]) 2 = 50 ∧
    syncBest syncN (constSamples 1000) = 10 ∧
    ¬ (syncBest syncN (constSamples 1000) ≤ syncN - 1) := by
  decide

/-- C13 as amended: for every sample sequence `c[0..N]` (`N ≥ 1`), the index `b` selected
by the sampling routine is one of the adjacent pairs `(i - 1, i)` with `i` in `[1, N]` and
has the smallest gap `c[i] - c[i-1]` (64-bit difference) among all `N` pairs, the last one
included; the last pair `(N - 1, N)` is the selected window whenever no earlier pair has a
strictly smaller gap. -/
theorem window_index_range (N : Nat) (tscs : Nat → Nat) (hN : 1 ≤ N) :
    1 ≤ syncBest N tscs ∧ syncBest N tscs ≤ N ∧
    (∀ i, 1 ≤ i → i ≤ N → gap tscs (syncBest N tscs) ≤ gap tscs i) ∧
    ((∀ i, 1 ≤ i → i < N → gap tscs N ≤ gap tscs i) → syncBest N tscs = N) := by
  obtain ⟨h1, h2⟩ := syncBest_range N tscs hN
  refine ⟨h1, h2, fun i hi hiN => syncBest_min N tscs i hi hiN, ?_⟩
  intro hlast
  by_contra hne
  have hlt : syncBest N tscs < N := lt_of_le_of_ne h2 hne
  have hs := syncBest_later N tscs hN N hlt le_rfl
  have hl := hlast (syncBest N tscs) h1 hlt
  omega

/-- C13 as amended, at `N = 3` with the cycle samples `[100, 150, 200, 201]`: the selected
index is in `[1, 3]`, its gap is minimal, and it is the last pair. -/
theorem window_index_range_witness :
    (1 ≤ syncBest 3 (listSamples [100, 150, 200, 201]) ∧
      syncBest 3 (listSamples [100, 150, 200, 201]) ≤ 3 ∧
      (∀ i, 1 ≤ i → i ≤ 3 → gap (listSamples [100, 150, 200, 201])
        (syncBest 3 (listSamples [100, 150, 200, 201]))
          ≤ gap (listSamples [100, 150, 200, 201]) i) ∧
      ((∀ i, 1 ≤ i → i < 3 → gap (listSamples [100, 150, 200, 201]) 3
          ≤ gap (listSamples [100, 150, 200, 201]) i) →
        syncBest 3 (listSamples [100, 150, 200, 201]) = 3)) ∧
    (∀ i, 1 ≤ i → i < 3 → gap (listSamples [100, 150, 200, 201]) 3
      ≤ gap (listSamples [100, 150, 200, 201]) i) :=
  ⟨window_index_range 3 (listSamples [100, 150, 200, 201]) (by decide), by decide⟩

/-- C14 (index safety): for every sample sequence the index `best` chosen by `syncTime`
satisfies `1 ≤ best ≤ N`, so the slots `tscs[best]`, `tscs[best - 1]` and `nses[best]` are
within the arrays of `N + 1` elements and `nses[0]` is not read: the result of `syncTime`
is the same for any two array contents that agree on `tscs[0..N]` and `nses[1..N]`. -/
theorem index_safety (N : Nat) (tscs nses : Nat → Nat) (hN : 1 ≤ N) :
    1 ≤ syncBest N tscs ∧ syncBest N tscs ≤ N ∧ syncBest N tscs - 1 ≤ N ∧
    (syncTime N tscs nses).2 = nses (syncBest N tscs) ∧
    (∀ tscs' nses' : Nat → Nat, (∀ i, i ≤ N → tscs i = tscs' i) →
      (∀ i, 1 ≤ i → i ≤ N → nses i = nses' i) →
      syncTime N tscs nses = syncTime N tscs' nses') := by
  obtain ⟨h1, h2⟩ := syncBest_range N tscs hN
  exact ⟨h1, h2, by omega, rfl,
    fun tscs' nses' ht hn => syncTime_congr N tscs nses tscs' nses' hN ht hn⟩

/-- C14 at the `N = 10` of the source: with the samples of a list of eleven cycle counts the
selected index is `7`, within `[1, 10]`, and changing `nses[0]` and the slots past the
arrays does not change the result. -/
theorem index_safety_witness :
    syncBest syncN (listSamples [0, 90, 180, 270, 360, 450, 540, 545, 640, 730, 820]) = 7 ∧
    1 ≤ syncBest syncN (listSamples [0, 90, 180, 270, 360, 450, 540, 545, 640, 730, 820]) ∧
    syncBest syncN (listSamples [0, 90, 180, 270, 360, 450, 540, 545, 640, 730, 820])
      ≤ syncN ∧
    syncTime syncN (listSamples [0, 90, 180, 270, 360, 450, 540, 545, 640, 730, 820])
        (listSamples [0, 1, 2, 3, 4, 5, 6, 7, 8, 9, 10])
      = syncTime syncN (listSamples [0, 90, 180, 270, 360, 450, 540, 545, 640, 730, 820, 77])
          (listSamples [99, 1, 2, 3, 4, 5, 6, 7, 8, 9, 10, 55]) :=
  ⟨by decide,
   (index_safety syncN (listSamples [0, 90, 180, 270, 360, 450, 540, 545, 640, 730, 820])
      (listSamples [0, 1, 2, 3, 4, 5, 6, 7, 8, 9, 10]) (by decide)).1,
   (index_safety syncN (listSamples [0, 90, 180, 270, 360, 450, 540, 545, 640, 730, 820])
      (listSamples [0, 1, 2, 3, 4, 5, 6, 7, 8, 9, 10]) (by decide)).2.1,
   (index_safety syncN (listSamples [0, 90, 180, 270, 360, 450, 540, 545, 640, 730, 820])
      (listSamples [0, 1, 2, 3, 4, 5, 6, 7, 8, 9, 10]) (by decide)).2.2.2.2
      (listSamples [0, 90, 180, 270, 360, 450, 540, 545, 640, 730, 820, 77])
      (listSamples [99, 1, 2, 3, 4, 5, 6, 7, 8, 9, 10, 55]) (by decide) (by decide)⟩

/-- C15 (tie-breaking): the index `best` selected by `syncTime` is in `1..N`, its
cycle-count gap is minimal among all `N` adjacent pairs, and when several pairs share the
minimal gap it is the largest such index: every window after it has a strictly larger gap,
every index of minimal gap is at most `best`, and `best` is the one index of minimal gap
with only strictly larger gaps after it.  The returned time is `t[best]`; in particular
when all `N` gaps are equal, `best = N` and `t[N]` is returned. -/
theorem tie_breaking (N : Nat) (tscs nses : Nat → Nat) (hN : 1 ≤ N) :
    1 ≤ syncBest N tscs ∧ syncBest N tscs ≤ N ∧
    (∀ i, 1 ≤ i → i ≤ N → gap tscs (syncBest N tscs) ≤ gap tscs i) ∧
    (∀ i, syncBest N tscs < i → i ≤ N → gap tscs (syncBest N tscs) < gap tscs i) ∧
    (∀ j, 1 ≤ j → j ≤ N → (∀ i, 1 ≤ i → i ≤ N → gap tscs j ≤ gap tscs i) →
      j ≤ syncBest N tscs) ∧
    (∀ j, 1 ≤ j → j ≤ N → (∀ i, 1 ≤ i → i ≤ N → gap tscs j ≤ gap tscs i) →
      (∀ i, j < i → i ≤ N → gap tscs j < gap tscs i) → syncBest N tscs = j) ∧
    (syncTime N tscs nses).2 = nses (syncBest N tscs) ∧
    ((∀ i, 1 ≤ i → i ≤ N → gap tscs i = gap tscs N) →
      syncBest N tscs = N ∧ (syncTime N tscs nses).2 = nses N) := by
  have hlater := syncBest_later N tscs hN
  have hmin := syncBest_min N tscs
  obtain ⟨h1, h2⟩ := syncBest_range N tscs hN
  have hlargest : ∀ j, 1 ≤ j → j ≤ N → (∀ i, 1 ≤ i → i ≤ N → gap tscs j ≤ gap tscs i) →
      j ≤ syncBest N tscs := by
    intro j _ hjN hj
    by_contra hc
    push_neg at hc
    have := hlater j hc hjN
    have := hj (syncBest N tscs) h1 h2
    omega
  refine ⟨h1, h2, hmin, hlater, hlargest, ?_, rfl, ?_⟩
  · intro j hj1 hjN hj hafter
    have hle := hlargest j hj1 hjN hj
    by_contra hne
    have hlt : j < syncBest N tscs := lt_of_le_of_ne hle (fun h => hne h.symm)
    have := hafter (syncBest N tscs) hlt h2
    have := hmin j hj1 hjN
    omega
  · intro hall
    have hb : syncBest N tscs = N := by
      by_contra hne
      have hlt : syncBest N tscs < N := lt_of_le_of_ne h2 hne
      have := hlater N hlt le_rfl
      have := hall (syncBest N tscs) h1 h2
      omega
    refine ⟨hb, ?_⟩
    show nses (syncBest N tscs) = nses N
    rw [hb]

/-- C15 at `N = 3`.  With the cycle samples `[100, 110, 120, 160]` the gaps are
`10, 10, 40`: the windows `1` and `2` share the minimal gap and the later one, index `2`,
is selected, with the time `t[2] = 1002`.  With `[100, 101, 151, 201]` the gaps are
`1, 50, 50` and index `1` is selected.  With the equal gaps of `[100, 110, 120, 130]`
index `3` is selected and `t[3] = 2000` returned. -/
theorem tie_breaking_witness :
    gap (listSamples [100, 110, 120, 160]) 1 = 10 ∧
    gap (listSamples [100, 110, 120, 160]) 2 = 10 ∧
    gap (listSamples [100, 110, 120, 160]) 3 = 40 ∧
    syncBest 3 (listSamples [100, 110, 120, 160]) = 2 ∧
    syncTime 3 (listSamples [100, 110, 120, 160]) (listSamples [0, 1000, 1002, 2000])
      = (115, 1002) ∧
    gap (listSamples [100, 101, 151, 201]) 1 = 1 ∧
    gap (listSamples [100, 101, 151, 201]) 2 = 50 ∧
    gap (listSamples [100, 101, 151, 201]) 3 = 50 ∧
    syncBest 3 (listSamples [100, 101, 151, 201]) = 1 ∧
    (syncBest 3 (listSamples [100, 110, 120, 130]) = 3 ∧
      (syncTime 3 (listSamples [100, 110, 120, 130]) (listSamples [0, 1000, 1002, 2000])).2
        = listSamples [0, 1000, 1002, 2000] 3) :=
  ⟨by decide, by decide, by decide,
   (tie_breaking 3 (listSamples [100, 110, 120, 160]) (listSamples [0, 1000, 1002, 2000])
      (by decide)).2.2.2.2.2.1 2 (by decide) (by decide) (by decide)
      (fun i h1 h2 => by
        have h3 : i = 3 := by omega
        subst h3
        decide),
   by decide, by decide, by decide, by decide,
   (tie_breaking 3 (listSamples [100, 101, 151, 201]) (listSamples [0, 1000, 1002, 2000])
      (by decide)).2.2.2.2.2.1 1 (by decide) (by decide) (by decide)
      (fun i h1 h2 => by
        have h3 : i = 2 ∨ i = 3 := by omega
        rcases h3 with h3 | h3 <;> subst h3 <;> decide),
   (tie_breaking 3 (listSamples [100, 110, 120, 130]) (listSamples [0, 1000, 1002, 2000])
      (by decide)).2.2.2.2.2.2.2 (by decide)⟩

/-! ## Degenerate calibration -/

theorem delta64_self (a : Nat) : delta64 a a = 0 := by
  unfold delta64 toI64 sub64
  have h : (a + (2 ^ 64 - a % 2 ^ 64)) % 2 ^ 64 = 0 := by omega
  rw [h]
  simp

theorem toI64_range (u : Nat) : -2 ^ 63 ≤ toI64 u ∧ toI64 u < 2 ^ 63 := by
  unfold toI64
  split_ifs <;> omega

theorem delta64_range (a b : Nat) : -2 ^ 63 ≤ delta64 a b ∧ delta64 a b < 2 ^ 63 :=
  toI64_range _

theorem ofInt64_zero : F64.ofInt64 0 = F64.fin false 0 (-1074) := by decide

/-- The double of a non-zero `int64_t` is finite and not a zero. -/
theorem ofInt64_fin (i : Int) (h1 : -2 ^ 63 ≤ i) (h2 : i < 2 ^ 63) (h0 : i ≠ 0) :
    ∃ M E, F64.ofInt64 i = F64.fin (decide (i < 0)) M E ∧ M ≠ 0 := by
  have hn : 0 < i.natAbs := Int.natAbs_pos.mpr h0
  have hle : i.natAbs ≤ 2 ^ 63 := by omega
  have hq : ((i.natAbs : ℚ) / ((1 : Nat) : ℚ)) * (2 : ℚ) ^ (0 : Int) = (i.natAbs : ℚ) := by simp
  -- the rounded value lies between 1 and 2 ^ 63
  have hlo : (1 : ℚ) ≤ val (rndM i.natAbs 1 0) (rndE i.natAbs 1 0) := by
    have h := rndVal_mono_zero 1 1 i.natAbs 1 0 0 Nat.one_pos Nat.one_pos (by
      rw [hq]
      have : (1 : ℚ) ≤ (i.natAbs : ℚ) := by exact_mod_cast hn
      simpa using this)
    rw [rndVal_exact 1 0 (by norm_num) (by norm_num)] at h
    have e1 : val 1 0 = 1 := by simp [val]
    rwa [e1] at h
  have hhi : val (rndM i.natAbs 1 0) (rndE i.natAbs 1 0) ≤ (2 : ℚ) ^ (63 : Int) := by
    have h := rndVal_mono_zero i.natAbs 1 1 1 0 63 Nat.one_pos Nat.one_pos (by
      rw [hq]
      have : (i.natAbs : ℚ) ≤ ((2 ^ 63 : Nat) : ℚ) := by exact_mod_cast hle
      have e : ((1 : Nat) : ℚ) / ((1 : Nat) : ℚ) * (2 : ℚ) ^ (63 : Int) = ((2 ^ 63 : Nat) : ℚ) := by
        norm_num
      rw [e]
      exact this)
    rw [rndVal_exact 1 63 (by norm_num) (by norm_num)] at h
    have e1 : val 1 63 = (2 : ℚ) ^ (63 : Int) := by simp [val]
    rwa [e1] at h
  unfold F64.ofInt64
  rcases round_cases (decide (i < 0)) i.natAbs 1 0 Nat.one_pos with ⟨-, hv⟩ | ⟨M, E, hr, hv, -⟩
  · exfalso
    have : (2 : ℚ) ^ (63 : Int) < (2 : ℚ) ^ (1024 : Int) := by norm_num
    linarith
  · refine ⟨M, E, hr, ?_⟩
    intro hM
    rw [hM] at hv
    have e0 : val 0 E = 0 := by simp [val]
    rw [e0] at hv
    rw [← hv] at hlo
    norm_num at hlo

theorem div_zero_left (t : Bool) (M : Nat) (E : Int) (hM : M ≠ 0) :
    F64.div (F64.fin false 0 (-1074)) (F64.fin t M E) = F64.fin t 0 (-1074) := by
  show (if M = 0 then _ else _) = _
  rw [if_neg hM]
  cases t <;> simp [F64.round]

theorem div_zero_right (s : Bool) (M : Nat) (E : Int) (hM : M ≠ 0) :
    F64.div (F64.fin s M E) (F64.fin false 0 (-1074)) = F64.inf s := by
  have h : F64.div (F64.fin s M E) (F64.fin false 0 (-1074))
      = if (0 : Nat) = 0 then (if M = 0 then F64.nan else F64.inf (xor s false))
        else F64.round (xor s false) M 0 (E - (-1074)) := rfl
  rw [h, if_pos rfl, if_neg hM]
  cases s <;> rfl

theorem one_div_zero (t : Bool) : F64.div F64.one (F64.fin t 0 (-1074)) = F64.inf t := by
  cases t <;> decide

theorem one_div_inf (s : Bool) : F64.div F64.one (F64.inf s) = F64.fin s 0 (-1074) := by
  cases s <;> decide

theorem one_div_nan : F64.div F64.one F64.nan = F64.nan := by decide

/-- The values of `rate_inv` and of the returned rate in the three degenerate cases of
`calibrate()`, in terms of the signed differences `dns = new_ns - base_ns` and
`dtsc = new_tsc - base_tsc`. -/
theorem calibrate_degenerate (s : TSCNS) (tscs nses : Nat → Nat) :
    (delta64 (syncTime syncN tscs nses).2 s.base_ns = 0 →
      delta64 (syncTime syncN tscs nses).1 s.base_tsc = 0 →
      (calibrate s tscs nses).2.tsc_ghz_inv = F64.nan ∧ (calibrate s tscs nses).1 = F64.nan) ∧
    (delta64 (syncTime syncN tscs nses).2 s.base_ns = 0 →
      delta64 (syncTime syncN tscs nses).1 s.base_tsc ≠ 0 →
      (calibrate s tscs nses).2.tsc_ghz_inv
        = F64.fin (decide (delta64 (syncTime syncN tscs nses).1 s.base_tsc < 0)) 0 (-1074) ∧
      (calibrate s tscs nses).1
        = F64.inf (decide (delta64 (syncTime syncN tscs nses).1 s.base_tsc < 0))) ∧
    (delta64 (syncTime syncN tscs nses).2 s.base_ns ≠ 0 →
      delta64 (syncTime syncN tscs nses).1 s.base_tsc = 0 →
      (calibrate s tscs nses).2.tsc_ghz_inv
        = F64.inf (decide (delta64 (syncTime syncN tscs nses).2 s.base_ns < 0)) ∧
      (calibrate s tscs nses).1
        = F64.fin (decide (delta64 (syncTime syncN tscs nses).2 s.base_ns < 0)) 0 (-1074)) := by
  have hinv : (calibrate s tscs nses).2.tsc_ghz_inv
      = F64.div (F64.ofInt64 (delta64 (syncTime syncN tscs nses).2 s.base_ns))
          (F64.ofInt64 (delta64 (syncTime syncN tscs nses).1 s.base_tsc)) := rfl
  have hret : (calibrate s tscs nses).1
      = F64.div F64.one (calibrate s tscs nses).2.tsc_ghz_inv := rfl
  rw [hret, hinv]
  obtain ⟨a1, a2⟩ := delta64_range (syncTime syncN tscs nses).2 s.base_ns
  obtain ⟨b1, b2⟩ := delta64_range (syncTime syncN tscs nses).1 s.base_tsc
  refine ⟨?_, ?_, ?_⟩
  · intro hn ht
    rw [hn, ht]
    decide
  · intro hn ht
    obtain ⟨M, E, hM, hM0⟩ := ofInt64_fin _ b1 b2 ht
    rw [hn, ofInt64_zero, hM, div_zero_left _ M E hM0, one_div_zero]
    exact ⟨rfl, rfl⟩
  · intro hn ht
    obtain ⟨M, E, hM, hM0⟩ := ofInt64_fin _ a1 a2 hn
    rw [ht, ofInt64_zero, hM, div_zero_right _ M E hM0, one_div_inf]
    exact ⟨rfl, rfl⟩

/-- C11 fails as stated when the cycle count equals `base_tsc` and the wall-clock time does
not equal `base_ns`: with the anchor `(1000, 5000000000)` and the second sample
`(1000, 5001000000)`, `rate_inv = 1000000.0 / 0.0` is `+inf` and the returned rate
`1.0 / rate_inv` is `0.0`, a finite value. -/
theorem degenerate_returned_rate_fails :
    (syncTime syncN (constSamples 1000) (constSamples 5001000000)).1
      = (init TSCNS.fresh F64.zero (constSamples 1000) (constSamples 5000000000)).base_tsc ∧
    (calibrate (init TSCNS.fresh F64.zero (constSamples 1000) (constSamples 5000000000))
      (constSamples 1000) (constSamples 5001000000)).2.tsc_ghz_inv = F64.inf false ∧
    (calibrate (init TSCNS.fresh F64.zero (constSamples 1000) (constSamples 5000000000))
      (constSamples 1000) (constSamples 5001000000)).1 = F64.fin false 0 (-1074) ∧
    (calibrate (init TSCNS.fresh F64.zero (constSamples 1000) (constSamples 5000000000))
      (constSamples 1000) (constSamples 5001000000)).1.infOrNan = false := by
  decide

/-- C11 as amended: for every anchor and every second sample whose wall-clock time equals
`base_ns` (zero elapsed time), the rate returned by `calibrate()` is infinite or NaN; for
a second sample whose cycle count equals `base_tsc` while its wall-clock time differs from
`base_ns`, `rate_inv` is infinite and the returned rate is a zero (`0.0` or `-0.0`), which
is finite.  The conditions are on the signed 64-bit differences, which are `0` for equal
values. -/
theorem degenerate_returned_rate (s : TSCNS) (tscs nses : Nat → Nat) :
    (delta64 (syncTime syncN tscs nses).2 s.base_ns = 0 →
      (calibrate s tscs nses).1.infOrNan = true) ∧
    (delta64 (syncTime syncN tscs nses).1 s.base_tsc = 0 →
      delta64 (syncTime syncN tscs nses).2 s.base_ns ≠ 0 →
      (calibrate s tscs nses).1.isZero = true ∧
      (calibrate s tscs nses).1.infOrNan = false ∧
      (calibrate s tscs nses).2.tsc_ghz_inv.infOrNan = true) ∧
    (∀ a : Nat, delta64 a a = 0) := by
  obtain ⟨h1, h2, h3⟩ := calibrate_degenerate s tscs nses
  refine ⟨?_, ?_, delta64_self⟩
  · intro hn
    by_cases ht : delta64 (syncTime syncN tscs nses).1 s.base_tsc = 0
    · rw [(h1 hn ht).2]; rfl
    · rw [(h2 hn ht).2]; rfl
  · intro ht hn
    obtain ⟨e1, e2⟩ := h3 hn ht
    rw [e1, e2]
    exact ⟨rfl, rfl, rfl⟩

/-- C11 as amended, with the anchor `(1000, 5000000000)`: the second sample
`(4000000, 5000000000)` (zero elapsed time) returns `+inf`, the second sample
`(1000, 5000000000)` (nothing elapsed) returns NaN. -/
theorem degenerate_returned_rate_witness :
    (calibrate (init TSCNS.fresh F64.zero (constSamples 1000) (constSamples 5000000000))
      (constSamples 4000000) (constSamples 5000000000)).1 = F64.inf false ∧
    (calibrate (init TSCNS.fresh F64.zero (constSamples 1000) (constSamples 5000000000))
      (constSamples 1000) (constSamples 5000000000)).1 = F64.nan ∧
    (calibrate (init TSCNS.fresh F64.zero (constSamples 1000) (constSamples 5000000000))
      (constSamples 4000000) (constSamples 5000000000)).1.infOrNan = true ∧
    (calibrate (init TSCNS.fresh F64.zero (constSamples 1000) (constSamples 5000000000))
      (constSamples 1000) (constSamples 5001000000)).1.isZero = true :=
  ⟨by decide, by decide,
   (degenerate_returned_rate
      (init TSCNS.fresh F64.zero (constSamples 1000) (constSamples 5000000000))
      (constSamples 4000000) (constSamples 5000000000)).1 (by decide),
   ((degenerate_returned_rate
      (init TSCNS.fresh F64.zero (constSamples 1000) (constSamples 5000000000))
      (constSamples 1000) (constSamples 5001000000)).2.1 (by decide) (by decide)).1⟩

/-- C12 fails as stated when the wall-clock delta is zero and the cycle-count delta is not:
with the anchor `(1000, 5000000000)` and the second sample `(4000000, 5000000000)` the
stored `rate_inv = 0.0 / 3999000.0` is `0.0`, a finite value. -/
theorem degenerate_rate_inv_fails :
    delta64 (syncTime syncN (constSamples 4000000) (constSamples 5000000000)).2
      (init TSCNS.fresh F64.zero (constSamples 1000) (constSamples 5000000000)).base_ns = 0 ∧
    (calibrate (init TSCNS.fresh F64.zero (constSamples 1000) (constSamples 5000000000))
      (constSamples 4000000) (constSamples 5000000000)).2.tsc_ghz_inv
      = F64.fin false 0 (-1074) ∧
    (calibrate (init TSCNS.fresh F64.zero (constSamples 1000) (constSamples 5000000000))
      (constSamples 4000000) (constSamples 5000000000)).2.tsc_ghz_inv.infOrNan = false := by
  decide

/-- C12 as amended: for every anchor and every second sample for which the cycle-count
delta is zero, the `rate_inv` stored by `calibrate()` is infinite or NaN; when the
wall-clock delta is zero and the cycle-count delta is not, the stored `rate_inv` is a zero
(`0.0` or `-0.0`), which is finite (and the returned rate `1.0 / rate_inv` is infinite). -/
theorem degenerate_rate_inv (s : TSCNS) (tscs nses : Nat → Nat) :
    (delta64 (syncTime syncN tscs nses).1 s.base_tsc = 0 →
      (calibrate s tscs nses).2.tsc_ghz_inv.infOrNan = true) ∧
    (delta64 (syncTime syncN tscs nses).2 s.base_ns = 0 →
      delta64 (syncTime syncN tscs nses).1 s.base_tsc ≠ 0 →
      (calibrate s tscs nses).2.tsc_ghz_inv.isZero = true ∧
      (calibrate s tscs nses).2.tsc_ghz_inv.infOrNan = false ∧
      (calibrate s tscs nses).1.infOrNan = true) ∧
    (∀ a : Nat, delta64 a a = 0) := by
  obtain ⟨h1, h2, h3⟩ := calibrate_degenerate s tscs nses
  refine ⟨?_, ?_, delta64_self⟩
  · intro ht
    by_cases hn : delta64 (syncTime syncN tscs nses).2 s.base_ns = 0
    · rw [(h1 hn ht).1]; rfl
    · rw [(h3 hn ht).1]; rfl
  · intro hn ht
    obtain ⟨e1, e2⟩ := h2 hn ht
    rw [e1, e2]
    exact ⟨rfl, rfl, rfl⟩

/-- C12 as amended, with the anchor `(1000, 5000000000)`: the second sample
`(1000, 5001000000)` (zero cycle-count delta) stores `rate_inv = +inf`, the second sample
`(1000, 5000000000)` stores NaN, and `(4000000, 5000000000)` stores a zero. -/
theorem degenerate_rate_inv_witness :
    (calibrate (init TSCNS.fresh F64.zero (constSamples 1000) (constSamples 5000000000))
      (constSamples 1000) (constSamples 5001000000)).2.tsc_ghz_inv = F64.inf false ∧
    (calibrate (init TSCNS.fresh F64.zero (constSamples 1000) (constSamples 5000000000))
      (constSamples 1000) (constSamples 5000000000)).2.tsc_ghz_inv = F64.nan ∧
    (calibrate (init TSCNS.fresh F64.zero (constSamples 1000) (constSamples 5000000000))
      (constSamples 1000) (constSamples 5001000000)).2.tsc_ghz_inv.infOrNan = true ∧
    (calibrate (init TSCNS.fresh F64.zero (constSamples 1000) (constSamples 5000000000))
      (constSamples 4000000) (constSamples 5000000000)).2.tsc_ghz_inv.isZero = true :=
  ⟨by decide, by decide,
   (degenerate_rate_inv
      (init TSCNS.fresh F64.zero (constSamples 1000) (constSamples 5000000000))
      (constSamples 1000) (constSamples 5001000000)).1 (by decide),
   ((degenerate_rate_inv
      (init TSCNS.fresh F64.zero (constSamples 1000) (constSamples 5000000000))
      (constSamples 4000000) (constSamples 5000000000)).2.1 (by decide) (by decide)).1⟩

/-! ## Monotonicity on the non-wrapping domain -/

/-- C17 (monotonicity on the non-wrapping domain): for every state with `tsc_ghz_inv > 0`
and all cycle counts `c1 ≤ c2 < 2 ^ 63` such that
`ns_offset + (int64_t)(c2 * tsc_ghz_inv) < 2 ^ 64`, neither sum wraps and
`tsc2ns(c1) ≤ tsc2ns(c2)`. -/
theorem monotone_non_wrapping (s : TSCNS) (c1 c2 : Nat) (hpos : s.tsc_ghz_inv.pos = true)
    (h12 : c1 ≤ c2) (h2 : c2 < 2 ^ 63)
    (hw : s.ns_offset + scale c2 s.tsc_ghz_inv < 2 ^ 64) :
    tsc2ns s c1 = s.ns_offset + scale c1 s.tsc_ghz_inv ∧
    tsc2ns s c2 = s.ns_offset + scale c2 s.tsc_ghz_inv ∧
    tsc2ns s c1 ≤ tsc2ns s c2 := by
  have hm := scale_mono c1 c2 s.tsc_ghz_inv h12 h2 hpos
  have e1 : tsc2ns s c1 = s.ns_offset + scale c1 s.tsc_ghz_inv := by
    unfold tsc2ns add64
    exact Nat.mod_eq_of_lt (by omega)
  have e2 : tsc2ns s c2 = s.ns_offset + scale c2 s.tsc_ghz_inv := by
    unfold tsc2ns add64
    exact Nat.mod_eq_of_lt hw
  refine ⟨e1, e2, ?_⟩
  rw [e1, e2]
  omega

/-- C17 after a calibration with the anchor `(1000, 5000000000)` and the second sample
`(4000000, 5001000000)`, at the cycle counts `1000 ≤ 4000000`: the results are
`5000000000 ≤ 5001000000`. -/
theorem monotone_non_wrapping_witness :
    tsc2ns (calibrate (init TSCNS.fresh F64.zero (constSamples 1000)
      (constSamples 5000000000)) (constSamples 4000000) (constSamples 5001000000)).2 1000
      = 5000000000 ∧
    tsc2ns (calibrate (init TSCNS.fresh F64.zero (constSamples 1000)
      (constSamples 5000000000)) (constSamples 4000000) (constSamples 5001000000)).2 4000000
      = 5001000000 ∧
    tsc2ns (calibrate (init TSCNS.fresh F64.zero (constSamples 1000)
      (constSamples 5000000000)) (constSamples 4000000) (constSamples 5001000000)).2 1000
      ≤ tsc2ns (calibrate (init TSCNS.fresh F64.zero (constSamples 1000)
          (constSamples 5000000000)) (constSamples 4000000) (constSamples 5001000000)).2
        4000000 :=
  ⟨by decide, by decide,
   (monotone_non_wrapping
     (calibrate (init TSCNS.fresh F64.zero (constSamples 1000)
       (constSamples 5000000000)) (constSamples 4000000) (constSamples 5001000000)).2
     1000 4000000 (by decide) (by decide) (by decide) (by decide)).2.2⟩

/-! ## The uncalibrated conversion -/

/-- Multiplying the double of a natural number below `2 ^ 53` by `1.0` gives it back. -/
theorem mul_one_ofNat (c : Nat) (hc : c < 2 ^ 53) :
    F64.mul (F64.ofNat c) F64.one = F64.ofNat c := by
  unfold F64.ofNat
  obtain ⟨M, E, h, hv⟩ := round_nat_exact false c hc
  rw [h]
  have hm : F64.mul (F64.fin false M E) F64.one = F64.round false (M * 2 ^ 52) 1 (E + (-52)) :=
    rfl
  rw [hm, ← h]
  apply round_congr false _ _ _ _ _ _ Nat.one_pos Nat.one_pos
  unfold val at hv
  rw [zpow_add₀ (by norm_num : (2 : ℚ) ≠ 0), zpow_zero, mul_one, ← hv]
  push_cast
  norm_num
  ring

/-- With `tsc_ghz_inv = 1.0` the conversion term of a cycle count below `2 ^ 53` is the
cycle count. -/
theorem scale_one (c : Nat) (hc : c < 2 ^ 53) : scale c F64.one = c := by
  have hc63 : c < 2 ^ 63 := lt_of_lt_of_le hc (by norm_num)
  unfold scale
  rw [toI64_of_lt c hc63, ofInt64_natCast]
  have h1 := mul_one_ofNat c hc
  unfold F64.ofNat at h1
  rw [h1]
  obtain ⟨M, E, h, hv⟩ := round_nat_exact false c hc
  rw [h, toU64_toInt64_fin, truncNat_eq_floor, hv, Nat.floor_natCast]
  exact min_eq_left (le_of_lt hc63)

/-- C18 (uncalibrated conversion is the identity): on a freshly constructed instance,
after `init(tsc_ghz)` with any `tsc_ghz ≤ 0`, `ns_offset` is still `0` and `tsc_ghz_inv`
is still `1.0`, so `tsc2ns(c) = c` for every cycle count `c < 2 ^ 53`; in particular
`tsc2ns(base_tsc) = base_tsc` for an anchor cycle count below `2 ^ 53`, whatever `base_ns`
was captured. -/
theorem uncalibrated_identity (r : F64) (tscs nses : Nat → Nat) (c : Nat)
    (hr : r.le0 = true) (hc : c < 2 ^ 53) :
    (init TSCNS.fresh r tscs nses).ns_offset = 0 ∧
    (init TSCNS.fresh r tscs nses).tsc_ghz_inv = F64.one ∧
    (init TSCNS.fresh r tscs nses).base_tsc = (syncTime syncN tscs nses).1 ∧
    (init TSCNS.fresh r tscs nses).base_ns = (syncTime syncN tscs nses).2 ∧
    tsc2ns (init TSCNS.fresh r tscs nses) c = c ∧
    ((syncTime syncN tscs nses).1 < 2 ^ 53 →
      tsc2ns (init TSCNS.fresh r tscs nses) (init TSCNS.fresh r tscs nses).base_tsc
        = (init TSCNS.fresh r tscs nses).base_tsc) := by
  have hinit : init TSCNS.fresh r tscs nses
      = { tsc_ghz_inv := F64.one, ns_offset := 0,
          base_tsc := (syncTime syncN tscs nses).1, base_ns := (syncTime syncN tscs nses).2 } := by
    unfold init
    rw [hr]
    rfl
  have key : ∀ x, x < 2 ^ 53 → tsc2ns (init TSCNS.fresh r tscs nses) x = x := by
    intro x hx
    rw [hinit]
    show add64 0 (scale x F64.one) = x
    rw [scale_one x hx]
    unfold add64
    rw [Nat.zero_add]
    exact Nat.mod_eq_of_lt (lt_of_lt_of_le hx (by norm_num))
  refine ⟨by rw [hinit], by rw [hinit], by rw [hinit], by rw [hinit], key c hc, ?_⟩
  intro hb
  have e : (init TSCNS.fresh r tscs nses).base_tsc = (syncTime syncN tscs nses).1 := by
    rw [hinit]
  rw [e]
  exact key _ hb

/-- C18 at `init(0.0)` and at `init(-3.0)` with the anchor `(100, 1000)`:
`tsc2ns(100) = 100`, not the anchor time `1000`, and `tsc2ns(123456789) = 123456789`. -/
theorem uncalibrated_identity_witness :
    (F64.ofInt64 (-3)).le0 = true ∧
    (init TSCNS.fresh (F64.ofInt64 (-3)) (constSamples 100) (constSamples 1000)).base_ns
      = 1000 ∧
    tsc2ns (init TSCNS.fresh (F64.ofInt64 (-3)) (constSamples 100) (constSamples 1000)) 100
      = 100 ∧
    tsc2ns (init TSCNS.fresh F64.zero (constSamples 100) (constSamples 1000)) 123456789
      = 123456789 :=
  ⟨by decide, by decide,
   (uncalibrated_identity (F64.ofInt64 (-3)) (constSamples 100) (constSamples 1000) 100
      (by decide) (by decide)).2.2.2.2.1,
   (uncalibrated_identity F64.zero (constSamples 100) (constSamples 1000) 123456789
      (by decide) (by decide)).2.2.2.2.1⟩

/-! ## Conversion accuracy -/

/-- The integer part of an in-range double is within one below its value. -/
theorem natTrunc_floor (p : F64) (h : p.inRange = true) :
    ((p.natTrunc : Nat) : ℚ) ≤ p.toRat ∧ p.toRat < ((p.natTrunc : Nat) : ℚ) + 1 := by
  cases p with
  | nan => simp [F64.inRange] at h
  | inf s => simp [F64.inRange] at h
  | fin s m e =>
    cases s with
    | true => simp [F64.inRange] at h
    | false =>
      have e1 : (F64.fin false m e).natTrunc = ⌊val m e⌋₊ := truncNat_eq_floor m e
      have e2 : (F64.fin false m e).toRat = val m e := by simp [F64.toRat]
      rw [e1, e2]
      exact ⟨Nat.floor_le (val_nonneg m e), Nat.lt_floor_add_one _⟩

/-- The value of `tsc2ns(c)` without wraparound, under the offset invariant:
`base_ns - trunc(base_tsc * tsc_ghz_inv) + trunc(c * tsc_ghz_inv)`. -/
theorem tsc2ns_no_wrap (s : TSCNS) (c : Nat) (hinv : OffsetInv s)
    (hb : s.base_tsc < 2 ^ 63) (hc : c < 2 ^ 63) (hns : s.base_ns < 2 ^ 64)
    (hbr : (F64.mul (F64.ofNat s.base_tsc) s.tsc_ghz_inv).inRange = true)
    (hcr : (F64.mul (F64.ofNat c) s.tsc_ghz_inv).inRange = true)
    (hsub : (F64.mul (F64.ofNat s.base_tsc) s.tsc_ghz_inv).natTrunc ≤ s.base_ns)
    (hadd : s.ns_offset + (F64.mul (F64.ofNat c) s.tsc_ghz_inv).natTrunc < 2 ^ 64) :
    tsc2ns s c + (F64.mul (F64.ofNat s.base_tsc) s.tsc_ghz_inv).natTrunc
      = s.base_ns + (F64.mul (F64.ofNat c) s.tsc_ghz_inv).natTrunc := by
  have e1 := scale_eq_natTrunc s.base_tsc s.tsc_ghz_inv hb hbr
  have e2 := scale_eq_natTrunc c s.tsc_ghz_inv hc hcr
  have ho : s.ns_offset
      = s.base_ns - (F64.mul (F64.ofNat s.base_tsc) s.tsc_ghz_inv).natTrunc := by
    have := hinv
    unfold OffsetInv at this
    rw [this, e1]
    exact sub64_of_le _ _ hns hsub
  unfold tsc2ns add64
  rw [e2, Nat.mod_eq_of_lt hadd]
  omega

/-- The conversion error in general: `tsc2ns(c)` differs from the exact affine value
`base_ns + (c - base_tsc) * tsc_ghz_inv` by less than `1` plus the rounding errors of the
two products of doubles. -/
theorem conversion_error_bound (s : TSCNS) (c : Nat) (hinv : OffsetInv s)
    (hb : s.base_tsc < 2 ^ 63) (hc : c < 2 ^ 63) (hns : s.base_ns < 2 ^ 64)
    (hbr : (F64.mul (F64.ofNat s.base_tsc) s.tsc_ghz_inv).inRange = true)
    (hcr : (F64.mul (F64.ofNat c) s.tsc_ghz_inv).inRange = true)
    (hsub : (F64.mul (F64.ofNat s.base_tsc) s.tsc_ghz_inv).natTrunc ≤ s.base_ns)
    (hadd : s.ns_offset + (F64.mul (F64.ofNat c) s.tsc_ghz_inv).natTrunc < 2 ^ 64) :
    |((tsc2ns s c : Nat) : ℚ)
        - ((s.base_ns : ℚ) + ((c : ℚ) - (s.base_tsc : ℚ)) * s.tsc_ghz_inv.toRat)|
      < 1 + |(F64.mul (F64.ofNat c) s.tsc_ghz_inv).toRat - (c : ℚ) * s.tsc_ghz_inv.toRat|
          + |(F64.mul (F64.ofNat s.base_tsc) s.tsc_ghz_inv).toRat
              - (s.base_tsc : ℚ) * s.tsc_ghz_inv.toRat| := by
  have h := tsc2ns_no_wrap s c hinv hb hc hns hbr hcr hsub hadd
  have hq : ((tsc2ns s c : Nat) : ℚ)
      = (s.base_ns : ℚ) + (((F64.mul (F64.ofNat c) s.tsc_ghz_inv).natTrunc : Nat) : ℚ)
        - (((F64.mul (F64.ofNat s.base_tsc) s.tsc_ghz_inv).natTrunc : Nat) : ℚ) := by
    have : ((tsc2ns s c + (F64.mul (F64.ofNat s.base_tsc) s.tsc_ghz_inv).natTrunc : Nat) : ℚ)
        = ((s.base_ns + (F64.mul (F64.ofNat c) s.tsc_ghz_inv).natTrunc : Nat) : ℚ) := by
      rw [h]
    push_cast at this
    linarith
  obtain ⟨b1, b2⟩ := natTrunc_floor _ hbr
  obtain ⟨c1, c2⟩ := natTrunc_floor _ hcr
  rw [hq]
  generalize (((F64.mul (F64.ofNat c) s.tsc_ghz_inv).natTrunc : Nat) : ℚ) = Tc at *
  generalize (((F64.mul (F64.ofNat s.base_tsc) s.tsc_ghz_inv).natTrunc : Nat) : ℚ) = Tb at *
  generalize (F64.mul (F64.ofNat c) s.tsc_ghz_inv).toRat = xc at *
  generalize (F64.mul (F64.ofNat s.base_tsc) s.tsc_ghz_inv).toRat = xb at *
  generalize s.tsc_ghz_inv.toRat = r at *
  have hc' := le_abs_self (xc - (c : ℚ) * r)
  have hc'' := neg_abs_le (xc - (c : ℚ) * r)
  have hb' := le_abs_self (xb - (s.base_tsc : ℚ) * r)
  have hb'' := neg_abs_le (xb - (s.base_tsc : ℚ) * r)
  rw [abs_lt]
  constructor <;> linarith

/-- C16 fails as stated when a product is out of the range of `int64_t`: after
`init(2 ^ -62)` with the anchor `(0, 1000)` the state has `tsc_ghz_inv = 2 ^ 62` (every
product with it is exact), `ns_offset = 1000` and satisfies the invariant; for `c = 3`
neither sum wraps, `tsc2ns(3) = 1000 + 2 ^ 63`, and the exact affine value is
`1000 + 3 * 2 ^ 62`, which is `2 ^ 62` more. -/
theorem conversion_accuracy_fails :
    OffsetInv (init TSCNS.fresh (F64.fin false (2 ^ 52) (-114)) (constSamples 0)
      (constSamples 1000)) ∧
    (init TSCNS.fresh (F64.fin false (2 ^ 52) (-114)) (constSamples 0)
      (constSamples 1000)) = ⟨F64.fin false (2 ^ 52) 10, 1000, 0, 1000⟩ ∧
    (F64.fin false (2 ^ 52) 10).pos = true ∧
    (F64.fin false (2 ^ 52) 10).toRat = 2 ^ 62 ∧
    (F64.mul (F64.ofNat 3) (F64.fin false (2 ^ 52) 10)).toRat = 3 * 2 ^ 62 ∧
    tsc2ns (init TSCNS.fresh (F64.fin false (2 ^ 52) (-114)) (constSamples 0)
      (constSamples 1000)) 3 = 1000 + 2 ^ 63 ∧
    ¬ (|((tsc2ns (init TSCNS.fresh (F64.fin false (2 ^ 52) (-114)) (constSamples 0)
          (constSamples 1000)) 3 : Nat) : ℚ)
        - (((1000 : Nat) : ℚ) + (((3 : Nat) : ℚ) - ((0 : Nat) : ℚ))
            * (F64.fin false (2 ^ 52) 10).toRat)| < 1) := by
  have ht : tsc2ns (init TSCNS.fresh (F64.fin false (2 ^ 52) (-114)) (constSamples 0)
      (constSamples 1000)) 3 = 1000 + 2 ^ 63 := by decide
  have hm : F64.mul (F64.ofNat 3) (F64.fin false (2 ^ 52) 10)
      = F64.fin false (3 * 2 ^ 51) 11 := by decide
  have hr : (F64.fin false (2 ^ 52) 10).toRat = 2 ^ 62 := by
    simp only [F64.toRat, val, Bool.false_eq_true, if_false]
    norm_num
  refine ⟨by decide, by decide, by decide, hr, ?_, ht, ?_⟩
  · rw [hm]
    simp only [F64.toRat, val, Bool.false_eq_true, if_false]
    norm_num
  · rw [ht, hr]
    intro hlt
    have h2 := (abs_lt.mp hlt).1
    norm_num at h2

/-- C16 as amended: for every state satisfying
`ns_offset = base_ns - trunc(base_tsc * tsc_ghz_inv)` and every cycle count `c` with
`base_tsc, c < 2 ^ 63`, when the products `base_tsc * tsc_ghz_inv` and `c * tsc_ghz_inv`
are non-negative, below `2 ^ 63` and exact (`tsc_ghz_inv` treated as an exact number: the
product of doubles is the product of the values) and neither the difference
`base_ns - trunc(..)` nor the sum `ns_offset + trunc(..)` wraps, `tsc2ns(c)` differs from
the exact affine value `base_ns + (c - base_tsc) * tsc_ghz_inv` by strictly less than 1. -/
theorem conversion_accuracy (s : TSCNS) (c : Nat) (hinv : OffsetInv s)
    (hb : s.base_tsc < 2 ^ 63) (hc : c < 2 ^ 63) (hns : s.base_ns < 2 ^ 64)
    (hbr : (F64.mul (F64.ofNat s.base_tsc) s.tsc_ghz_inv).inRange = true)
    (hcr : (F64.mul (F64.ofNat c) s.tsc_ghz_inv).inRange = true)
    (hbe : (F64.mul (F64.ofNat s.base_tsc) s.tsc_ghz_inv).toRat
      = (s.base_tsc : ℚ) * s.tsc_ghz_inv.toRat)
    (hce : (F64.mul (F64.ofNat c) s.tsc_ghz_inv).toRat = (c : ℚ) * s.tsc_ghz_inv.toRat)
    (hsub : (F64.mul (F64.ofNat s.base_tsc) s.tsc_ghz_inv).natTrunc ≤ s.base_ns)
    (hadd : s.ns_offset + (F64.mul (F64.ofNat c) s.tsc_ghz_inv).natTrunc < 2 ^ 64) :
    |((tsc2ns s c : Nat) : ℚ)
        - ((s.base_ns : ℚ) + ((c : ℚ) - (s.base_tsc : ℚ)) * s.tsc_ghz_inv.toRat)| < 1 := by
  have h := conversion_error_bound s c hinv hb hc hns hbr hcr hsub hadd
  rw [hbe, hce] at h
  simpa using h

/-- C16 as amended, after `init(2.0)` with the anchor `(1000, 5000)`, at `c = 2001`: the
state is `tsc_ghz_inv = 0.5`, `ns_offset = 4500`; the products `500` and `1000.5` are exact;
`tsc2ns(2001) = 5500` and the exact affine value is `5000 + 1001 * 0.5 = 5500.5`. -/
theorem conversion_accuracy_witness :
    init TSCNS.fresh (F64.ofInt64 2) (constSamples 1000) (constSamples 5000)
      = ⟨F64.fin false (2 ^ 52) (-53), 4500, 1000, 5000⟩ ∧
    tsc2ns ⟨F64.fin false (2 ^ 52) (-53), 4500, 1000, 5000⟩ 2001 = 5500 ∧
    |((tsc2ns ⟨F64.fin false (2 ^ 52) (-53), 4500, 1000, 5000⟩ 2001 : Nat) : ℚ)
        - (((5000 : Nat) : ℚ) + (((2001 : Nat) : ℚ) - ((1000 : Nat) : ℚ))
            * (F64.fin false (2 ^ 52) (-53)).toRat)| < 1 := by
  have hm1 : F64.mul (F64.ofNat 1000) (F64.fin false (2 ^ 52) (-53))
      = F64.fin false (500 * 2 ^ 44) (-44) := by decide
  have hm2 : F64.mul (F64.ofNat 2001) (F64.fin false (2 ^ 52) (-53))
      = F64.fin false (2001 * 2 ^ 42) (-43) := by decide
  refine ⟨by decide, by decide, ?_⟩
  refine conversion_accuracy ⟨F64.fin false (2 ^ 52) (-53), 4500, 1000, 5000⟩ 2001
    (by decide) (by decide) (by decide) (by decide) (by decide) (by decide) ?_ ?_
    (by decide) (by decide)
  · show (F64.mul (F64.ofNat 1000) (F64.fin false (2 ^ 52) (-53))).toRat
      = ((1000 : Nat) : ℚ) * (F64.fin false (2 ^ 52) (-53)).toRat
    rw [hm1]
    simp only [F64.toRat, val, Bool.false_eq_true, if_false]
    norm_num
  · show (F64.mul (F64.ofNat 2001) (F64.fin false (2 ^ 52) (-53))).toRat
      = ((2001 : Nat) : ℚ) * (F64.fin false (2 ^ 52) (-53)).toRat
    rw [hm2]
    simp only [F64.toRat, val, Bool.false_eq_true, if_false]
    norm_num

/-- Without exact products the error is not below `1`: with `tsc_ghz_inv` the double
nearest to `1 / 3`, anchor `(0, 0)` and `c = 2 ^ 62 + 12345`, the product of doubles is
rounded to a multiple of `256` and `tsc2ns(c) = 1537228672809133312`, while the exact
product `c * tsc_ghz_inv` has the integer part `1537228672809133330`. -/
theorem conversion_rounding_example :
    F64.div F64.one (F64.ofInt64 3) = F64.fin false 6004799503160661 (-54) ∧
    OffsetInv ⟨F64.fin false 6004799503160661 (-54), 0, 0, 0⟩ ∧
    tsc2ns ⟨F64.fin false 6004799503160661 (-54), 0, 0, 0⟩ (2 ^ 62 + 12345)
      = 1537228672809133312 ∧
    truncNat ((2 ^ 62 + 12345) * 6004799503160661) (-54) = 1537228672809133330 := by
  decide

end TSC
